import Mathlib

/-!
Verification of the StringZilla byte-search core (`stringzilla.h`).

The embedding models `char` as a signed 8-bit integer (as on x86-64, the
platform the AVX2 back-end targets), bytes in memory as natural numbers,
pointers as natural addresses (so the pointer-alignment prologues are
computable), and `uint64_t` arithmetic as `Nat` arithmetic reduced modulo
2^64 wherever the C code can wrap.  Every memory access goes through
`Option`: a read outside the haystack or the needle buffer yields `none`,
so in-bounds theorems state that the functions return `some`.  Loops carry
explicit fuel; every entry point passes fuel strictly larger than the
possible iteration count.
-/

def U64 : Nat := 18446744073709551616

/-- A haystack: the numeric value of `h.ptr` plus the bytes `h.ptr[0..h.len)`. -/
structure strzl_haystack_t where
  addr : Nat
  data : List Nat
deriving DecidableEq

def strzl_haystack_t.len (h : strzl_haystack_t) : Nat := h.data.length

/-- A needle: the bytes `n.ptr[0..n.len)` plus the anomaly offset. -/
structure strzl_needle_t where
  bytes : List Nat
  anomaly_offset : Nat
deriving DecidableEq

def strzl_needle_t.len (n : strzl_needle_t) : Nat := n.bytes.length

/-- Guarded single-byte read from the haystack (`h.ptr[i]`). -/
def readByte (h : strzl_haystack_t) (i : Nat) : Option Nat := h.data[i]?

/-- Guarded multi-byte read from the haystack (`memcpy(&x, h.ptr + i, cnt)`). -/
def readBytes (h : strzl_haystack_t) (i cnt : Nat) : Option (List Nat) :=
  if i + cnt ≤ h.data.length then some ((h.data.drop i).take cnt) else none

/-- Guarded single-byte read from the needle buffer (`n.ptr[i]`). -/
def needleByte (n : strzl_needle_t) (i : Nat) : Option Nat := n.bytes[i]?

/-- Guarded multi-byte read from the needle buffer. -/
def needleBytes (n : strzl_needle_t) (i cnt : Nat) : Option (List Nat) :=
  if i + cnt ≤ n.bytes.length then some ((n.bytes.drop i).take cnt) else none

/-- Little-endian packing of a byte list into an integer, as an x86 load does. -/
def packLE : List Nat → Nat
  | [] => 0
  | b :: bs => b + 256 * packLE bs

/-- 64-bit bitwise complement. -/
def not64 (x : Nat) : Nat := x ^^^ (U64 - 1)

/-- 64-bit left shift with wraparound. -/
def shl64 (x k : Nat) : Nat := (x <<< k) % U64

/-- The value of `(uint64_t)c` where `c` is a signed `char` holding byte `b`:
bytes at and above 0x80 sign-extend. -/
def sextChar (b : Nat) : Nat := if b < 128 then b else U64 - 256 + b

/-- `__builtin_popcountll` on a 64-bit value. -/
def popcount64 (x : Nat) : Nat := (List.range 64).countP (fun i => x.testBit i)

/-- `__builtin_ctzll` on a 64-bit value (64 when no bit is set; the code only
uses it on nonzero arguments). -/
def ctz64 (x : Nat) : Nat := ((List.range 64).find? (fun i => x.testBit i)).getD 64

/-- The template word `nnnnnnnn` of `strzl_naive_count_char` / `strzl_naive_find_char`:
`uint64_t nnnnnnnn = n; nnnnnnnn |= nnnnnnnn << 8; ... << 16; ... << 32;`. -/
def strzl_broadcast_char (c : Nat) : Nat :=
  let n1 := sextChar c
  let n2 := n1 ||| shl64 n1 8
  let n3 := n2 ||| shl64 n2 16
  n3 ||| shl64 n3 32

/-- The per-slice SWAR fold of the 1-byte kernels:
`m = ~(h_slice ^ t); m &= m >> 1; m &= m >> 2; m &= m >> 4; m &= 0x0101010101010101`. -/
def swar1_indicators (h_slice t : Nat) : Nat :=
  let m0 := not64 (h_slice ^^^ t)
  let m1 := m0 &&& (m0 >>> 1)
  let m2 := m1 &&& (m1 >>> 2)
  let m3 := m2 &&& (m2 >>> 4)
  m3 &&& 0x0101010101010101

/-- First loop of `strzl_naive_find_char`: byte-by-byte until `h.ptr + i` is
8-aligned.  `Sum.inl` is an early `return`, `Sum.inr` the loop's exit index. -/
def strzl_naive_find_char_align (h : strzl_haystack_t) (c : Nat) :
    Nat → Nat → Option (Sum Nat Nat)
  | 0, _ => none
  | fuel + 1, i =>
    if (h.addr + i) % 8 ≠ 0 ∧ i < h.len then
      match readByte h i with
      | none => none
      | some b =>
        if b = c then some (Sum.inl i) else strzl_naive_find_char_align h c fuel (i + 1)
    else some (Sum.inr i)

/-- Main SWAR loop of `strzl_naive_find_char`: 8 bytes per iteration. -/
def strzl_naive_find_char_swar (h : strzl_haystack_t) (t : Nat) :
    Nat → Nat → Option (Sum Nat Nat)
  | 0, _ => none
  | fuel + 1, i =>
    if i + 8 ≤ h.len then
      match readBytes h i 8 with
      | none => none
      | some bs =>
        let mi := swar1_indicators (packLE bs) t
        if mi ≠ 0 then some (Sum.inl (i + ctz64 mi / 8))
        else strzl_naive_find_char_swar h t fuel (i + 8)
    else some (Sum.inr i)

/-- Tail loop of `strzl_naive_find_char`: byte-by-byte, else miss. -/
def strzl_naive_find_char_tail (h : strzl_haystack_t) (c : Nat) :
    Nat → Nat → Option Nat
  | 0, _ => none
  | fuel + 1, i =>
    if i < h.len then
      match readByte h i with
      | none => none
      | some b =>
        if b = c then some i else strzl_naive_find_char_tail h c fuel (i + 1)
    else some h.len

/-- `strzl_naive_find_char(h, n)`. -/
def strzl_naive_find_char (h : strzl_haystack_t) (c : Nat) : Option Nat :=
  match strzl_naive_find_char_align h c (h.len + 1) 0 with
  | none => none
  | some (Sum.inl r) => some r
  | some (Sum.inr i) =>
    match strzl_naive_find_char_swar h (strzl_broadcast_char c) (h.len + 1) i with
    | none => none
    | some (Sum.inl r) => some r
    | some (Sum.inr i2) => strzl_naive_find_char_tail h c (h.len + 1) i2

/-- First loop of `strzl_naive_count_char`: byte-by-byte until 8-aligned,
accumulating the count.  Returns (exit index, count). -/
def strzl_naive_count_char_align (h : strzl_haystack_t) (c : Nat) :
    Nat → Nat → Nat → Option (Nat × Nat)
  | 0, _, _ => none
  | fuel + 1, i, acc =>
    if (h.addr + i) % 8 ≠ 0 ∧ i < h.len then
      match readByte h i with
      | none => none
      | some b =>
        strzl_naive_count_char_align h c fuel (i + 1) (if b = c then acc + 1 else acc)
    else some (i, acc)

/-- Main SWAR loop of `strzl_naive_count_char`: adds `popcount` of the
indicator word for each 8-byte slice. -/
def strzl_naive_count_char_swar (h : strzl_haystack_t) (t : Nat) :
    Nat → Nat → Nat → Option (Nat × Nat)
  | 0, _, _ => none
  | fuel + 1, i, acc =>
    if i + 8 ≤ h.len then
      match readBytes h i 8 with
      | none => none
      | some bs =>
        strzl_naive_count_char_swar h t fuel (i + 8)
          (acc + popcount64 (swar1_indicators (packLE bs) t))
    else some (i, acc)

/-- Tail loop of `strzl_naive_count_char`. -/
def strzl_naive_count_char_tail (h : strzl_haystack_t) (c : Nat) :
    Nat → Nat → Nat → Option Nat
  | 0, _, _ => none
  | fuel + 1, i, acc =>
    if i < h.len then
      match readByte h i with
      | none => none
      | some b =>
        strzl_naive_count_char_tail h c fuel (i + 1) (if b = c then acc + 1 else acc)
    else some acc

/-- `strzl_naive_count_char(h, n)`. -/
def strzl_naive_count_char (h : strzl_haystack_t) (c : Nat) : Option Nat :=
  match strzl_naive_count_char_align h c (h.len + 1) 0 0 with
  | none => none
  | some (i, acc) =>
    match strzl_naive_count_char_swar h (strzl_broadcast_char c) (h.len + 1) i acc with
    | none => none
    | some (i2, acc2) => strzl_naive_count_char_tail h c (h.len + 1) i2 acc2

/-- The fold of `strzl_naive_find_2chars`:
`x &= x >> 1; x &= x >> 2; x &= x >> 4; x &= x >> 8; x &= mask`
(`mask` is `0x0001000100010001` for even matches, `0x0001000100010000` for odd). -/
def swar2_indicators (x mask : Nat) : Nat :=
  let m1 := x &&& (x >>> 1)
  let m2 := m1 &&& (m1 >>> 2)
  let m3 := m2 &&& (m2 >>> 4)
  let m4 := m3 &&& (m3 >>> 8)
  m4 &&& mask

/-- The fold of `strzl_naive_find_3chars`:
`x &= x >> 1; x &= x >> 2; x &= x >> 4;
 x = (x >> 16) & (x >> 8) & (x >> 0) & 0x0000010000010000`. -/
def swar3_indicators (x : Nat) : Nat :=
  let m1 := x &&& (x >>> 1)
  let m2 := m1 &&& (m1 >>> 2)
  let m3 := m2 &&& (m2 >>> 4)
  (m3 >>> 16) &&& (m3 >>> 8) &&& m3 &&& 0x0000010000010000

/-- The fold of `strzl_naive_find_4chars`:
`x &= x >> 1; ... >> 2; ... >> 4; ... >> 8; ... >> 16; x &= 0x0000000100000001`. -/
def swar4_indicators (x : Nat) : Nat :=
  let m1 := x &&& (x >>> 1)
  let m2 := m1 &&& (m1 >>> 2)
  let m3 := m2 &&& (m2 >>> 4)
  let m4 := m3 &&& (m3 >>> 8)
  let m5 := m4 &&& (m4 >>> 16)
  m5 &&& 0x0000000100000001

/-- Template of `strzl_naive_find_2chars`:
`uint64_t nnnn = (uint64_t(n[0]) << 0) | (uint64_t(n[1]) << 8);
 nnnn |= nnnn << 16; nnnn |= nnnn << 32;` (signed-char sign extension). -/
def strzl_2chars_template (n0 n1 : Nat) : Nat :=
  let a := sextChar n0 ||| shl64 (sextChar n1) 8
  let b := a ||| shl64 a 16
  b ||| shl64 b 32

/-- Main SWAR loop of `strzl_naive_find_2chars`: 7 offsets per 8-byte load. -/
def strzl_naive_find_2chars_swar (h : strzl_haystack_t) (nnnn : Nat) :
    Nat → Nat → Option (Sum Nat Nat)
  | 0, _ => none
  | fuel + 1, i =>
    if i + 8 ≤ h.len then
      match readBytes h i 8 with
      | none => none
      | some bs =>
        let h_slice := packLE bs
        let even := swar2_indicators (not64 (h_slice ^^^ nnnn)) 0x0001000100010001
        let odd := swar2_indicators (not64 (shl64 h_slice 8 ^^^ nnnn)) 0x0001000100010000
        if even + odd ≠ 0 then
          some (Sum.inl (i + ctz64 (even ||| (odd >>> 8)) / 8))
        else strzl_naive_find_2chars_swar h nnnn fuel (i + 7)
    else some (Sum.inr i)

/-- Tail loop of `strzl_naive_find_2chars`. -/
def strzl_naive_find_2chars_tail (h : strzl_haystack_t) (n0 n1 : Nat) :
    Nat → Nat → Option Nat
  | 0, _ => none
  | fuel + 1, i =>
    if i + 2 ≤ h.len then
      match readByte h i, readByte h (i + 1) with
      | some b0, some b1 =>
        if b0 = n0 ∧ b1 = n1 then some i
        else strzl_naive_find_2chars_tail h n0 n1 fuel (i + 1)
      | _, _ => none
    else some h.len

/-- `strzl_naive_find_2chars(h, n)` where `n0 = n[0]`, `n1 = n[1]`. -/
def strzl_naive_find_2chars (h : strzl_haystack_t) (n0 n1 : Nat) : Option Nat :=
  match strzl_naive_find_2chars_swar h (strzl_2chars_template n0 n1) (h.len + 1) 0 with
  | none => none
  | some (Sum.inl r) => some r
  | some (Sum.inr i) => strzl_naive_find_2chars_tail h n0 n1 (h.len + 1) i

/-- Template of `strzl_naive_find_3chars`:
`uint64_t nn = uint64_t(n[0] << 0) | (uint64_t(n[1]) << 8) | (uint64_t(n[2]) << 16);
 nn |= nn << 24; nn <<= 16;`. -/
def strzl_3chars_template (n0 n1 n2 : Nat) : Nat :=
  let a := sextChar n0 ||| shl64 (sextChar n1) 8 ||| shl64 (sextChar n2) 16
  let b := a ||| shl64 a 24
  shl64 b 16

/-- Main SWAR loop of `strzl_naive_find_3chars`: 6 offsets per 8-byte load. -/
def strzl_naive_find_3chars_swar (h : strzl_haystack_t) (nn : Nat) :
    Nat → Nat → Option (Sum Nat Nat)
  | 0, _ => none
  | fuel + 1, i =>
    if i + 8 ≤ h.len then
      match readBytes h i 8 with
      | none => none
      | some bs =>
        let h_slice := packLE bs
        let first := swar3_indicators (not64 (h_slice ^^^ nn))
        let second := swar3_indicators (not64 (shl64 h_slice 8 ^^^ nn))
        let third := swar3_indicators (not64 (shl64 h_slice 16 ^^^ nn))
        let mi := first ||| (second >>> 8) ||| (third >>> 16)
        if mi ≠ 0 then some (Sum.inl (i + ctz64 mi / 8))
        else strzl_naive_find_3chars_swar h nn fuel (i + 6)
    else some (Sum.inr i)

/-- Tail loop of `strzl_naive_find_3chars`. -/
def strzl_naive_find_3chars_tail (h : strzl_haystack_t) (n0 n1 n2 : Nat) :
    Nat → Nat → Option Nat
  | 0, _ => none
  | fuel + 1, i =>
    if i + 3 ≤ h.len then
      match readByte h i, readByte h (i + 1), readByte h (i + 2) with
      | some b0, some b1, some b2 =>
        if b0 = n0 ∧ b1 = n1 ∧ b2 = n2 then some i
        else strzl_naive_find_3chars_tail h n0 n1 n2 fuel (i + 1)
      | _, _, _ => none
    else some h.len

/-- `strzl_naive_find_3chars(h, n)`. -/
def strzl_naive_find_3chars (h : strzl_haystack_t) (n0 n1 n2 : Nat) : Option Nat :=
  match strzl_naive_find_3chars_swar h (strzl_3chars_template n0 n1 n2) (h.len + 1) 0 with
  | none => none
  | some (Sum.inl r) => some r
  | some (Sum.inr i) => strzl_naive_find_3chars_tail h n0 n1 n2 (h.len + 1) i

/-- Template of `strzl_naive_find_4chars`:
`uint64_t nn = uint64_t(n[0] << 0) | (uint64_t(n[1]) << 8) | (uint64_t(n[2]) << 16)
             | (uint64_t(n[3]) << 24); nn |= nn << 32;`. -/
def strzl_4chars_template (n0 n1 n2 n3 : Nat) : Nat :=
  let a := sextChar n0 ||| shl64 (sextChar n1) 8 ||| shl64 (sextChar n2) 16 |||
    shl64 (sextChar n3) 24
  a ||| shl64 a 32

/-- The 16-entry table of `strzl_naive_find_4chars` mapping the 4-bit outcome
to the earliest matching offset. -/
def strzl_4chars_lookup : List Nat := [0, 0, 1, 0, 2, 0, 1, 0, 3, 0, 1, 0, 2, 0, 1, 0]

/-- Alignment prologue of `strzl_naive_find_4chars`: byte-by-byte while
`h.ptr + i` is not 8-aligned and at least 4 bytes remain. -/
def strzl_naive_find_4chars_align (h : strzl_haystack_t) (n0 n1 n2 n3 : Nat) :
    Nat → Nat → Option (Sum Nat Nat)
  | 0, _ => none
  | fuel + 1, i =>
    if (h.addr + i) % 8 ≠ 0 ∧ i + 4 ≤ h.len then
      match readByte h i, readByte h (i + 1), readByte h (i + 2), readByte h (i + 3) with
      | some b0, some b1, some b2, some b3 =>
        if b0 = n0 ∧ b1 = n1 ∧ b2 = n2 ∧ b3 = n3 then some (Sum.inl i)
        else strzl_naive_find_4chars_align h n0 n1 n2 n3 fuel (i + 1)
      | _, _, _, _ => none
    else some (Sum.inr i)

/-- Main SWAR loop of `strzl_naive_find_4chars`: 4 offsets per 8-byte load,
swizzled into two 64-bit words of two 32-bit candidate windows each. -/
def strzl_naive_find_4chars_swar (h : strzl_haystack_t) (nn : Nat) :
    Nat → Nat → Option (Sum Nat Nat)
  | 0, _ => none
  | fuel + 1, i =>
    if i + 8 ≤ h.len then
      match readBytes h i 8 with
      | none => none
      | some bs =>
        let h_slice := packLE bs
        let h01 := (h_slice &&& 0x00000000FFFFFFFF) ||| shl64 (h_slice &&& 0x000000FFFFFFFF00) 24
        let h23 := ((h_slice &&& 0x0000FFFFFFFF0000) >>> 16) |||
          shl64 (h_slice &&& 0x00FFFFFFFF000000) 8
        let i01 := swar4_indicators (not64 (h01 ^^^ nn))
        let i23 := swar4_indicators (not64 (h23 ^^^ nn))
        if i01 + i23 ≠ 0 then
          let mi := ((i01 >>> 31) ||| i01 ||| (i23 >>> 29) ||| shl64 i23 2) % 256
          some (Sum.inl (i + strzl_4chars_lookup.getD mi 0))
        else strzl_naive_find_4chars_swar h nn fuel (i + 4)
    else some (Sum.inr i)

/-- Tail loop of `strzl_naive_find_4chars`. -/
def strzl_naive_find_4chars_tail (h : strzl_haystack_t) (n0 n1 n2 n3 : Nat) :
    Nat → Nat → Option Nat
  | 0, _ => none
  | fuel + 1, i =>
    if i + 4 ≤ h.len then
      match readByte h i, readByte h (i + 1), readByte h (i + 2), readByte h (i + 3) with
      | some b0, some b1, some b2, some b3 =>
        if b0 = n0 ∧ b1 = n1 ∧ b2 = n2 ∧ b3 = n3 then some i
        else strzl_naive_find_4chars_tail h n0 n1 n2 n3 fuel (i + 1)
      | _, _, _, _ => none
    else some h.len

/-- `strzl_naive_find_4chars(h, n)`. -/
def strzl_naive_find_4chars (h : strzl_haystack_t) (n0 n1 n2 n3 : Nat) : Option Nat :=
  match strzl_naive_find_4chars_align h n0 n1 n2 n3 (h.len + 1) 0 with
  | none => none
  | some (Sum.inl r) => some r
  | some (Sum.inr i) =>
    match strzl_naive_find_4chars_swar h (strzl_4chars_template n0 n1 n2 n3) (h.len + 1) i with
    | none => none
    | some (Sum.inl r) => some r
    | some (Sum.inr i2) => strzl_naive_find_4chars_tail h n0 n1 n2 n3 (h.len + 1) i2

/-- `strzl_equal(a, b, len)`, generic over two guarded byte readers; compares
byte-by-byte, stopping at the first mismatch exactly as the C loop does. -/
def strzl_equal (a b : Nat → Option Nat) : Nat → Nat → Nat → Option Bool
  | _, _, 0 => some true
  | ai, bi, len + 1 =>
    match a ai, b bi with
    | some x, some y =>
      if x = y then strzl_equal a b (ai + 1) (bi + 1) len else some false
    | _, _ => none

/-- The `default` loop of `strzl_naive_find_substr` (needle length at least 5).
`i` is `h_ptr - h.ptr`, starting at `n.anomaly_offset`; the loop runs while
`h_ptr + n.len <= h_end`; on an anomaly-window hit it verifies the suffix and
then the bytes preceding the window, and reports `i - n.anomaly_offset`. -/
def strzl_naive_find_substr_main (h : strzl_haystack_t) (n : strzl_needle_t)
    (n_anomaly n_suffix_len : Nat) : Nat → Nat → Option Nat
  | 0, _ => none
  | fuel + 1, i =>
    if i + n.len ≤ h.len then
      match readBytes h i 4 with
      | none => none
      | some w =>
        if packLE w = n_anomaly then
          match strzl_equal (readByte h) (needleByte n) (i + 4) (4 + n.anomaly_offset)
              n_suffix_len with
          | none => none
          | some true =>
            match strzl_equal (readByte h) (needleByte n) (i - n.anomaly_offset) 0
                n.anomaly_offset with
            | none => none
            | some true => some (i - n.anomaly_offset)
            | some false =>
              strzl_naive_find_substr_main h n n_anomaly n_suffix_len fuel (i + 1)
          | some false =>
            strzl_naive_find_substr_main h n n_anomaly n_suffix_len fuel (i + 1)
        else strzl_naive_find_substr_main h n n_anomaly n_suffix_len fuel (i + 1)
    else some h.len

/-- `strzl_naive_find_substr(h, n)`: too-long-needle guard, then the switch on
`n.len` routing to the dedicated kernels, else the anomaly-window loop.
`n.len - 4 - n.anomaly_offset` is `size_t` arithmetic; under the documented
precondition `anomaly_offset + 4 <= n.len` it never wraps, and `Nat`
truncated subtraction is used for it.  The `switch (n.len)` is rendered as a
chain of equality tests. -/
def strzl_naive_find_substr (h : strzl_haystack_t) (n : strzl_needle_t) : Option Nat :=
  if h.len < n.len then some h.len
  else if n.len = 0 then some 0
  else if n.len = 1 then
    match needleByte n 0 with
    | some c => strzl_naive_find_char h c
    | none => none
  else if n.len = 2 then
    match needleByte n 0, needleByte n 1 with
    | some a, some b => strzl_naive_find_2chars h a b
    | _, _ => none
  else if n.len = 3 then
    match needleByte n 0, needleByte n 1, needleByte n 2 with
    | some a, some b, some c => strzl_naive_find_3chars h a b c
    | _, _, _ => none
  else if n.len = 4 then
    match needleByte n 0, needleByte n 1, needleByte n 2, needleByte n 3 with
    | some a, some b, some c, some d => strzl_naive_find_4chars h a b c d
    | _, _, _, _ => none
  else
    match needleBytes n n.anomaly_offset 4 with
    | none => none
    | some w =>
      strzl_naive_find_substr_main h n (packLE w) (n.len - 4 - n.anomaly_offset)
        (h.len + 1) n.anomaly_offset

/-- `strzl_divide_round_up`. -/
def strzl_divide_round_up (x divisor : Nat) : Nat := (x + (divisor - 1)) / divisor

/-- One candidate-window mask of `strzl_avx2_find_substr`:
`_mm256_movemask_epi8(_mm256_cmpeq_epi32(h_prefixes, n_prefix_vec))` on the 32
bytes loaded at `h.ptr + i`.  Each of the eight 32-bit lanes equal to the
needle's first four bytes contributes four set mask bits. -/
def avx2_cmpeq_mask (bs : List Nat) (p : Nat) : Nat :=
  (List.range 8).foldl
    (fun acc m =>
      if packLE ((bs.drop (4 * m)).take 4) = p then acc ||| (15 <<< (4 * m)) else acc)
    0

/-- The scalar verification loop shared by the AVX2 and NEON scanners:
`for (size_t i = 0; i < W; i++) if (strzl_equal(h_ptr + i, n.ptr, n.len)) return i + (h_ptr - h.ptr);`
with `W = 32` (AVX2) or `W = 16` (NEON); `some none` means the loop fell
through without a hit. -/
def strzl_simd_verify (h : strzl_haystack_t) (n : strzl_needle_t) (base : Nat) :
    Nat → Nat → Option (Option Nat)
  | 0, _ => some none
  | k + 1, j =>
    match strzl_equal (readByte h) (needleByte n) (base + j) 0 n.len with
    | none => none
    | some true => some (some (j + base))
    | some false => strzl_simd_verify h n base k (j + 1)

/-- Main loop of `strzl_avx2_find_substr`: four unaligned 32-byte loads at
offsets 0..3, masks ORed, a 32-candidate scalar verification on any hit,
stride 32; the tail is delegated to `strzl_naive_find_substr`. -/
def strzl_avx2_find_substr_loop (h : strzl_haystack_t) (n : strzl_needle_t) (p : Nat) :
    Nat → Nat → Option Nat
  | 0, _ => none
  | fuel + 1, i =>
    if i + n.len + 32 ≤ h.len then
      match readBytes h i 32, readBytes h (i + 1) 32, readBytes h (i + 2) 32,
          readBytes h (i + 3) 32 with
      | some b0, some b1, some b2, some b3 =>
        let masks := avx2_cmpeq_mask b0 p ||| avx2_cmpeq_mask b1 p ||| avx2_cmpeq_mask b2 p |||
          avx2_cmpeq_mask b3 p
        if masks ≠ 0 then
          match strzl_simd_verify h n i 32 0 with
          | none => none
          | some (some r) => some r
          | some none => strzl_avx2_find_substr_loop h n p fuel (i + 32)
        else strzl_avx2_find_substr_loop h n p fuel (i + 32)
      | _, _, _, _ => none
    else
      match strzl_naive_find_substr ⟨h.addr + i, h.data.drop i⟩ n with
      | none => none
      | some t => some (i + t)

/-- `strzl_avx2_find_substr(h, n)`. -/
def strzl_avx2_find_substr (h : strzl_haystack_t) (n : strzl_needle_t) : Option Nat :=
  if n.len < 4 then strzl_naive_find_substr h n
  else
    match needleBytes n 0 4 with
    | none => none
    | some w => strzl_avx2_find_substr_loop h n (packLE w) (h.len + 1) 0

/-- One candidate-window mask of `strzl_neon_find_substr`:
`vceqq_u32(vld1q_u32(h.ptr + i), n_prefix_vec)` on the 16 bytes at `h.ptr + i`,
as the 128-bit register value (0xFFFFFFFF per equal 32-bit lane). -/
def neon_cmpeq_lanes (bs : List Nat) (p : Nat) : Nat :=
  (List.range 4).foldl
    (fun acc m =>
      if packLE ((bs.drop (4 * m)).take 4) = p then acc ||| (0xFFFFFFFF <<< (32 * m)) else acc)
    0

/-- Main loop of `strzl_neon_find_substr`: four unaligned 16-byte loads at
offsets 0..3, lane masks ORed (`has_match` is the OR of the two 64-bit
halves), a 16-candidate scalar verification on any hit, stride 16; the tail
is delegated to `strzl_naive_find_substr`. -/
def strzl_neon_find_substr_loop (h : strzl_haystack_t) (n : strzl_needle_t) (p : Nat) :
    Nat → Nat → Option Nat
  | 0, _ => none
  | fuel + 1, i =>
    if i + n.len + 16 ≤ h.len then
      match readBytes h i 16, readBytes h (i + 1) 16, readBytes h (i + 2) 16,
          readBytes h (i + 3) 16 with
      | some b0, some b1, some b2, some b3 =>
        let masks := neon_cmpeq_lanes b0 p ||| neon_cmpeq_lanes b1 p ||| neon_cmpeq_lanes b2 p |||
          neon_cmpeq_lanes b3 p
        if masks ≠ 0 then
          match strzl_simd_verify h n i 16 0 with
          | none => none
          | some (some r) => some r
          | some none => strzl_neon_find_substr_loop h n p fuel (i + 16)
        else strzl_neon_find_substr_loop h n p fuel (i + 16)
      | _, _, _, _ => none
    else
      match strzl_naive_find_substr ⟨h.addr + i, h.data.drop i⟩ n with
      | none => none
      | some t => some (i + t)

/-- `strzl_neon_find_substr(h, n)`. -/
def strzl_neon_find_substr (h : strzl_haystack_t) (n : strzl_needle_t) : Option Nat :=
  if n.len < 4 then strzl_naive_find_substr h n
  else
    match needleBytes n 0 4 with
    | none => none
    | some w => strzl_neon_find_substr_loop h n (packLE w) (h.len + 1) 0

/-- Vector loop of `strzl_neon_count_char`: per 16-byte slice, `vceqq_u8`
against the broadcast byte, then `popcount(half)/8` for each 64-bit half. -/
def strzl_neon_count_char_vec (h : strzl_haystack_t) (c : Nat) :
    Nat → Nat → Nat → Option (Nat × Nat)
  | 0, _, _ => none
  | fuel + 1, i, acc =>
    if i + 16 ≤ h.len then
      match readBytes h i 16 with
      | none => none
      | some bs =>
        let masks := packLE (bs.map fun b => if b = c then 0xFF else 0)
        strzl_neon_count_char_vec h c fuel (i + 16)
          (acc + popcount64 (masks % U64) / 8 + popcount64 (masks / U64) / 8)
    else some (i, acc)

/-- `strzl_neon_count_char(h, n)`: scalar count of the misaligned head, the
16-wide vector loop over the aligned middle, scalar count of the tail. -/
def strzl_neon_count_char (h : strzl_haystack_t) (c : Nat) : Option Nat :=
  let aligned_start := strzl_divide_round_up h.addr 16 * 16
  let misaligned_len := min (aligned_start - h.addr) h.len
  match strzl_naive_count_char ⟨h.addr, h.data.take misaligned_len⟩ c with
  | none => none
  | some result =>
    if h.len ≤ misaligned_len then some result
    else
      match strzl_neon_count_char_vec h c (h.len + 1) misaligned_len result with
      | none => none
      | some (i, acc) =>
        match strzl_naive_count_char ⟨h.addr + i, h.data.drop i⟩ c with
        | none => none
        | some t => some (acc + t)

example : strzl_naive_find_char ⟨0, [3, 7, 5]⟩ 5 = some 2 := by decide
example : strzl_naive_find_char ⟨0, [3, 7, 5]⟩ 9 = some 3 := by decide
example : strzl_naive_find_char ⟨0, [0, 1, 2, 3, 4, 5, 6, 7, 8, 9, 10, 11]⟩ 9 = some 9 := by
  decide
example : strzl_naive_count_char ⟨5, [7, 7, 1, 7, 2, 7, 7, 7, 7, 7, 7, 1]⟩ 7 = some 9 := by
  decide
example : strzl_naive_find_char ⟨0, [0x00, 0xFF, 0, 0, 0, 0, 0, 0]⟩ 0x80 = some 1 := by
  decide
example : strzl_naive_count_char ⟨0, [0x00, 0xFF, 0, 0, 0, 0, 0, 0]⟩ 0x80 = some 1 := by
  decide
example :
    strzl_naive_find_substr ⟨0, [97, 98, 114, 97, 99, 97, 100, 97, 98, 114, 97]⟩
      ⟨[99, 97, 100], 0⟩ = some 4 := by decide
example :
    strzl_naive_find_substr ⟨0, [97, 98, 114, 97, 99, 97, 100, 97, 98, 114, 97]⟩
      ⟨[120, 121, 122], 0⟩ = some 11 := by decide
example :
    strzl_naive_find_substr ⟨0, [97, 98, 114, 97, 99, 97, 100, 97, 98, 114, 97]⟩
      ⟨[114, 97], 0⟩ = some 2 := by decide
example :
    strzl_naive_find_substr ⟨0, [97, 97, 97, 97, 97, 97, 97, 97]⟩
      ⟨[97, 97, 97, 97], 0⟩ = some 0 := by decide
example :
    strzl_naive_find_substr ⟨0, [97, 98, 114, 97, 99, 97, 100, 97, 98, 114, 97]⟩
      ⟨[99, 97, 100, 97, 98], 0⟩ = some 4 := by decide
example :
    strzl_naive_find_substr ⟨0, [97, 98, 114, 97, 99, 97, 100, 97, 98, 114, 97]⟩
      ⟨[99, 97, 100, 97, 98], 1⟩ = some 4 := by decide
example : strzl_naive_find_substr ⟨0, []⟩ ⟨[], 0⟩ = some 0 := by decide
example : strzl_naive_find_substr ⟨0, [97, 98, 99]⟩ ⟨[97, 98, 99, 100], 0⟩ = some 3 := by
  decide
example :
    strzl_naive_find_substr ⟨0, [122, 97, 98, 99, 100, 101]⟩
      ⟨[97, 98, 99, 100, 101], 1⟩ = some 6 := by decide
example :
    strzl_naive_find_substr ⟨0, [122, 97, 98, 99, 100, 101]⟩
      ⟨[97, 98, 99, 100, 101], 0⟩ = some 1 := by decide
example :
    strzl_naive_find_substr ⟨3, [97, 98, 114, 97, 99, 97, 100, 97, 98, 114, 97]⟩
      ⟨[99, 97, 100], 0⟩ = some 4 := by decide
example :
    strzl_avx2_find_substr
      ⟨0, List.replicate 20 120 ++ [110, 101, 101, 100, 108, 101] ++ List.replicate 30 121⟩
      ⟨[110, 101, 101, 100, 108, 101], 0⟩ = some 20 := by decide
example :
    strzl_neon_find_substr
      ⟨0, List.replicate 20 120 ++ [110, 101, 101, 100, 108, 101] ++ List.replicate 30 121⟩
      ⟨[110, 101, 101, 100, 108, 101], 0⟩ = some 20 := by decide
example :
    strzl_naive_find_substr
      ⟨0, List.replicate 20 120 ++ [110, 101, 101, 100, 108, 101] ++ List.replicate 30 121⟩
      ⟨[110, 101, 101, 100, 108, 101], 0⟩ = some 20 := by decide
example :
    strzl_naive_find_substr ⟨0, [0x00, 0xFF, 0xFF, 0xFF, 0xFF] ++ List.replicate 35 0⟩
      ⟨[0x80, 0x41, 0x41, 0x41], 0⟩ = some 1 := by decide
example :
    strzl_avx2_find_substr ⟨0, [0x00, 0xFF, 0xFF, 0xFF, 0xFF] ++ List.replicate 35 0⟩
      ⟨[0x80, 0x41, 0x41, 0x41], 0⟩ = some 40 := by decide
example :
    strzl_neon_find_substr ⟨0, [0x00, 0xFF, 0xFF, 0xFF, 0xFF] ++ List.replicate 35 0⟩
      ⟨[0x80, 0x41, 0x41, 0x41], 0⟩ = some 40 := by decide
example :
    strzl_neon_count_char ⟨7, [98, 97, 110, 97, 110, 97] ++ List.replicate 30 97⟩ 97 =
      some 33 := by decide
example :
    strzl_naive_count_char ⟨7, [98, 97, 110, 97, 110, 97] ++ List.replicate 30 97⟩ 97 =
      some 33 := by decide

theorem readByte_isSome {h : strzl_haystack_t} {i : Nat} (hi : i < h.len) :
    ∃ b, readByte h i = some b :=
  ⟨h.data[i], List.getElem?_eq_getElem hi⟩

theorem readBytes_isSome {h : strzl_haystack_t} {i cnt : Nat} (hic : i + cnt ≤ h.len) :
    ∃ bs, readBytes h i cnt = some bs := by
  unfold readBytes
  rw [if_pos (show i + cnt ≤ h.data.length from hic)]
  exact ⟨_, rfl⟩

theorem needleByte_isSome {n : strzl_needle_t} {i : Nat} (hi : i < n.len) :
    ∃ b, needleByte n i = some b :=
  ⟨n.bytes[i], List.getElem?_eq_getElem hi⟩

theorem needleBytes_isSome {n : strzl_needle_t} {i cnt : Nat} (hic : i + cnt ≤ n.len) :
    ∃ bs, needleBytes n i cnt = some bs := by
  unfold needleBytes
  rw [if_pos (show i + cnt ≤ n.bytes.length from hic)]
  exact ⟨_, rfl⟩

theorem strzl_equal_total (a b : Nat → Option Nat) :
    ∀ len ai bi, (∀ k, k < len → ∃ x, a (ai + k) = some x) →
      (∀ k, k < len → ∃ y, b (bi + k) = some y) →
      ∃ r, strzl_equal a b ai bi len = some r := by
  intro len
  induction len with
  | zero => intro ai bi _ _; exact ⟨true, rfl⟩
  | succ m ih =>
    intro ai bi ha hb
    obtain ⟨x, hx⟩ := ha 0 (Nat.succ_pos m)
    obtain ⟨y, hy⟩ := hb 0 (Nat.succ_pos m)
    rw [Nat.add_zero] at hx hy
    simp only [strzl_equal, hx, hy]
    by_cases hxy : x = y
    · rw [if_pos hxy]
      refine ih (ai + 1) (bi + 1) (fun k hk => ?_) (fun k hk => ?_)
      · have e : ai + 1 + k = ai + (k + 1) := by omega
        rw [e]; exact ha (k + 1) (by omega)
      · have e : bi + 1 + k = bi + (k + 1) := by omega
        rw [e]; exact hb (k + 1) (by omega)
    · rw [if_neg hxy]; exact ⟨false, rfl⟩

theorem find_char_align_total (h : strzl_haystack_t) (c : Nat) :
    ∀ fuel i, h.len - i < fuel →
      ∃ r, strzl_naive_find_char_align h c fuel i = some r := by
  intro fuel
  induction fuel with
  | zero => intro i hi; exact absurd hi (by omega)
  | succ m ih =>
    intro i hi
    simp only [strzl_naive_find_char_align]
    split
    · next hcond =>
      obtain ⟨b, hb⟩ := readByte_isSome hcond.2
      simp only [hb]
      split
      · exact ⟨_, rfl⟩
      · exact ih (i + 1) (by omega)
    · exact ⟨_, rfl⟩

theorem find_char_swar_total (h : strzl_haystack_t) (t : Nat) :
    ∀ fuel i, h.len - i < fuel →
      ∃ r, strzl_naive_find_char_swar h t fuel i = some r := by
  intro fuel
  induction fuel with
  | zero => intro i hi; exact absurd hi (by omega)
  | succ m ih =>
    intro i hi
    simp only [strzl_naive_find_char_swar]
    split
    · next hcond =>
      obtain ⟨bs, hbs⟩ := readBytes_isSome hcond
      simp only [hbs]
      split
      · exact ⟨_, rfl⟩
      · exact ih (i + 8) (by omega)
    · exact ⟨_, rfl⟩

theorem find_char_tail_total (h : strzl_haystack_t) (c : Nat) :
    ∀ fuel i, h.len - i < fuel →
      ∃ r, strzl_naive_find_char_tail h c fuel i = some r := by
  intro fuel
  induction fuel with
  | zero => intro i hi; exact absurd hi (by omega)
  | succ m ih =>
    intro i hi
    simp only [strzl_naive_find_char_tail]
    split
    · next hcond =>
      obtain ⟨b, hb⟩ := readByte_isSome hcond
      simp only [hb]
      split
      · exact ⟨_, rfl⟩
      · exact ih (i + 1) (by omega)
    · exact ⟨_, rfl⟩

theorem strzl_naive_find_char_total (h : strzl_haystack_t) (c : Nat) :
    ∃ r, strzl_naive_find_char h c = some r := by
  unfold strzl_naive_find_char
  obtain ⟨r1, h1⟩ := find_char_align_total h c (h.len + 1) 0 (by omega)
  rcases r1 with j | i
  · simp only [h1]
    exact ⟨_, rfl⟩
  · simp only [h1]
    obtain ⟨r2, h2⟩ := find_char_swar_total h (strzl_broadcast_char c) (h.len + 1) i (by omega)
    rcases r2 with j | i2
    · simp only [h2]
      exact ⟨_, rfl⟩
    · simp only [h2]
      exact find_char_tail_total h c (h.len + 1) i2 (by omega)

theorem count_char_align_total (h : strzl_haystack_t) (c : Nat) :
    ∀ fuel i acc, h.len - i < fuel →
      ∃ r, strzl_naive_count_char_align h c fuel i acc = some r := by
  intro fuel
  induction fuel with
  | zero => intro i acc hi; exact absurd hi (by omega)
  | succ m ih =>
    intro i acc hi
    simp only [strzl_naive_count_char_align]
    split
    · next hcond =>
      obtain ⟨b, hb⟩ := readByte_isSome hcond.2
      simp only [hb]
      exact ih (i + 1) _ (by omega)
    · exact ⟨_, rfl⟩

theorem count_char_swar_total (h : strzl_haystack_t) (t : Nat) :
    ∀ fuel i acc, h.len - i < fuel →
      ∃ r, strzl_naive_count_char_swar h t fuel i acc = some r := by
  intro fuel
  induction fuel with
  | zero => intro i acc hi; exact absurd hi (by omega)
  | succ m ih =>
    intro i acc hi
    simp only [strzl_naive_count_char_swar]
    split
    · next hcond =>
      obtain ⟨bs, hbs⟩ := readBytes_isSome hcond
      simp only [hbs]
      exact ih (i + 8) _ (by omega)
    · exact ⟨_, rfl⟩

theorem count_char_tail_total (h : strzl_haystack_t) (c : Nat) :
    ∀ fuel i acc, h.len - i < fuel →
      ∃ r, strzl_naive_count_char_tail h c fuel i acc = some r := by
  intro fuel
  induction fuel with
  | zero => intro i acc hi; exact absurd hi (by omega)
  | succ m ih =>
    intro i acc hi
    simp only [strzl_naive_count_char_tail]
    split
    · next hcond =>
      obtain ⟨b, hb⟩ := readByte_isSome hcond
      simp only [hb]
      exact ih (i + 1) _ (by omega)
    · exact ⟨_, rfl⟩

theorem strzl_naive_count_char_total (h : strzl_haystack_t) (c : Nat) :
    ∃ r, strzl_naive_count_char h c = some r := by
  unfold strzl_naive_count_char
  obtain ⟨⟨i1, a1⟩, h1⟩ := count_char_align_total h c (h.len + 1) 0 0 (by omega)
  simp only [h1]
  obtain ⟨⟨i2, a2⟩, h2⟩ :=
    count_char_swar_total h (strzl_broadcast_char c) (h.len + 1) i1 a1 (by omega)
  simp only [h2]
  exact count_char_tail_total h c (h.len + 1) i2 a2 (by omega)

theorem find_2chars_swar_total (h : strzl_haystack_t) (t : Nat) :
    ∀ fuel i, h.len - i < fuel →
      ∃ r, strzl_naive_find_2chars_swar h t fuel i = some r := by
  intro fuel
  induction fuel with
  | zero => intro i hi; exact absurd hi (by omega)
  | succ m ih =>
    intro i hi
    simp only [strzl_naive_find_2chars_swar]
    split
    · next hcond =>
      obtain ⟨bs, hbs⟩ := readBytes_isSome hcond
      simp only [hbs]
      split
      · exact ⟨_, rfl⟩
      · exact ih (i + 7) (by omega)
    · exact ⟨_, rfl⟩

theorem find_2chars_tail_total (h : strzl_haystack_t) (n0 n1 : Nat) :
    ∀ fuel i, h.len - i < fuel →
      ∃ r, strzl_naive_find_2chars_tail h n0 n1 fuel i = some r := by
  intro fuel
  induction fuel with
  | zero => intro i hi; exact absurd hi (by omega)
  | succ m ih =>
    intro i hi
    simp only [strzl_naive_find_2chars_tail]
    split
    · next hcond =>
      obtain ⟨b0, hb0⟩ := readByte_isSome (show i < h.len by omega)
      obtain ⟨b1, hb1⟩ := readByte_isSome (show i + 1 < h.len by omega)
      simp only [hb0, hb1]
      split
      · exact ⟨_, rfl⟩
      · exact ih (i + 1) (by omega)
    · exact ⟨_, rfl⟩

theorem strzl_naive_find_2chars_total (h : strzl_haystack_t) (n0 n1 : Nat) :
    ∃ r, strzl_naive_find_2chars h n0 n1 = some r := by
  unfold strzl_naive_find_2chars
  obtain ⟨r1, h1⟩ := find_2chars_swar_total h (strzl_2chars_template n0 n1) (h.len + 1) 0
    (by omega)
  rcases r1 with j | i
  · simp only [h1]; exact ⟨_, rfl⟩
  · simp only [h1]
    exact find_2chars_tail_total h n0 n1 (h.len + 1) i (by omega)

theorem find_3chars_swar_total (h : strzl_haystack_t) (t : Nat) :
    ∀ fuel i, h.len - i < fuel →
      ∃ r, strzl_naive_find_3chars_swar h t fuel i = some r := by
  intro fuel
  induction fuel with
  | zero => intro i hi; exact absurd hi (by omega)
  | succ m ih =>
    intro i hi
    simp only [strzl_naive_find_3chars_swar]
    split
    · next hcond =>
      obtain ⟨bs, hbs⟩ := readBytes_isSome hcond
      simp only [hbs]
      split
      · exact ⟨_, rfl⟩
      · exact ih (i + 6) (by omega)
    · exact ⟨_, rfl⟩

theorem find_3chars_tail_total (h : strzl_haystack_t) (n0 n1 n2 : Nat) :
    ∀ fuel i, h.len - i < fuel →
      ∃ r, strzl_naive_find_3chars_tail h n0 n1 n2 fuel i = some r := by
  intro fuel
  induction fuel with
  | zero => intro i hi; exact absurd hi (by omega)
  | succ m ih =>
    intro i hi
    simp only [strzl_naive_find_3chars_tail]
    split
    · next hcond =>
      obtain ⟨b0, hb0⟩ := readByte_isSome (show i < h.len by omega)
      obtain ⟨b1, hb1⟩ := readByte_isSome (show i + 1 < h.len by omega)
      obtain ⟨b2, hb2⟩ := readByte_isSome (show i + 2 < h.len by omega)
      simp only [hb0, hb1, hb2]
      split
      · exact ⟨_, rfl⟩
      · exact ih (i + 1) (by omega)
    · exact ⟨_, rfl⟩

theorem strzl_naive_find_3chars_total (h : strzl_haystack_t) (n0 n1 n2 : Nat) :
    ∃ r, strzl_naive_find_3chars h n0 n1 n2 = some r := by
  unfold strzl_naive_find_3chars
  obtain ⟨r1, h1⟩ := find_3chars_swar_total h (strzl_3chars_template n0 n1 n2) (h.len + 1) 0
    (by omega)
  rcases r1 with j | i
  · simp only [h1]; exact ⟨_, rfl⟩
  · simp only [h1]
    exact find_3chars_tail_total h n0 n1 n2 (h.len + 1) i (by omega)

theorem find_4chars_align_total (h : strzl_haystack_t) (n0 n1 n2 n3 : Nat) :
    ∀ fuel i, h.len - i < fuel →
      ∃ r, strzl_naive_find_4chars_align h n0 n1 n2 n3 fuel i = some r := by
  intro fuel
  induction fuel with
  | zero => intro i hi; exact absurd hi (by omega)
  | succ m ih =>
    intro i hi
    simp only [strzl_naive_find_4chars_align]
    split
    · next hcond =>
      obtain ⟨b0, hb0⟩ := readByte_isSome (show i < h.len by omega)
      obtain ⟨b1, hb1⟩ := readByte_isSome (show i + 1 < h.len by omega)
      obtain ⟨b2, hb2⟩ := readByte_isSome (show i + 2 < h.len by omega)
      obtain ⟨b3, hb3⟩ := readByte_isSome (show i + 3 < h.len by omega)
      simp only [hb0, hb1, hb2, hb3]
      split
      · exact ⟨_, rfl⟩
      · exact ih (i + 1) (by omega)
    · exact ⟨_, rfl⟩

theorem find_4chars_swar_total (h : strzl_haystack_t) (t : Nat) :
    ∀ fuel i, h.len - i < fuel →
      ∃ r, strzl_naive_find_4chars_swar h t fuel i = some r := by
  intro fuel
  induction fuel with
  | zero => intro i hi; exact absurd hi (by omega)
  | succ m ih =>
    intro i hi
    simp only [strzl_naive_find_4chars_swar]
    split
    · next hcond =>
      obtain ⟨bs, hbs⟩ := readBytes_isSome hcond
      simp only [hbs]
      split
      · exact ⟨_, rfl⟩
      · exact ih (i + 4) (by omega)
    · exact ⟨_, rfl⟩

theorem find_4chars_tail_total (h : strzl_haystack_t) (n0 n1 n2 n3 : Nat) :
    ∀ fuel i, h.len - i < fuel →
      ∃ r, strzl_naive_find_4chars_tail h n0 n1 n2 n3 fuel i = some r := by
  intro fuel
  induction fuel with
  | zero => intro i hi; exact absurd hi (by omega)
  | succ m ih =>
    intro i hi
    simp only [strzl_naive_find_4chars_tail]
    split
    · next hcond =>
      obtain ⟨b0, hb0⟩ := readByte_isSome (show i < h.len by omega)
      obtain ⟨b1, hb1⟩ := readByte_isSome (show i + 1 < h.len by omega)
      obtain ⟨b2, hb2⟩ := readByte_isSome (show i + 2 < h.len by omega)
      obtain ⟨b3, hb3⟩ := readByte_isSome (show i + 3 < h.len by omega)
      simp only [hb0, hb1, hb2, hb3]
      split
      · exact ⟨_, rfl⟩
      · exact ih (i + 1) (by omega)
    · exact ⟨_, rfl⟩

theorem strzl_naive_find_4chars_total (h : strzl_haystack_t) (n0 n1 n2 n3 : Nat) :
    ∃ r, strzl_naive_find_4chars h n0 n1 n2 n3 = some r := by
  unfold strzl_naive_find_4chars
  obtain ⟨r1, h1⟩ := find_4chars_align_total h n0 n1 n2 n3 (h.len + 1) 0 (by omega)
  rcases r1 with j | i
  · simp only [h1]; exact ⟨_, rfl⟩
  · simp only [h1]
    obtain ⟨r2, h2⟩ := find_4chars_swar_total h (strzl_4chars_template n0 n1 n2 n3)
      (h.len + 1) i (by omega)
    rcases r2 with j | i2
    · simp only [h2]; exact ⟨_, rfl⟩
    · simp only [h2]
      exact find_4chars_tail_total h n0 n1 n2 n3 (h.len + 1) i2 (by omega)

theorem find_substr_main_total (h : strzl_haystack_t) (n : strzl_needle_t)
    (na sl : Nat) (hsl : 4 + n.anomaly_offset + sl ≤ n.len) :
    ∀ fuel i, h.len - i < fuel → n.anomaly_offset ≤ i →
      ∃ r, strzl_naive_find_substr_main h n na sl fuel i = some r := by
  intro fuel
  induction fuel with
  | zero => intro i hi _; exact absurd hi (by omega)
  | succ m ih =>
    intro i hi hai
    simp only [strzl_naive_find_substr_main]
    split
    · next hcond =>
      obtain ⟨w, hw⟩ := readBytes_isSome (show i + 4 ≤ h.len by omega)
      simp only [hw]
      split
      · obtain ⟨e1, he1⟩ := strzl_equal_total (readByte h) (needleByte n) sl (i + 4)
          (4 + n.anomaly_offset)
          (fun k hk => readByte_isSome (by omega))
          (fun k hk => needleByte_isSome (by omega))
        rcases e1 with _ | _
        · simp only [he1]
          exact ih (i + 1) (by omega) (by omega)
        · simp only [he1]
          obtain ⟨e2, he2⟩ := strzl_equal_total (readByte h) (needleByte n)
            n.anomaly_offset (i - n.anomaly_offset) 0
            (fun k hk => readByte_isSome (by omega))
            (fun k hk => needleByte_isSome (by omega))
          rcases e2 with _ | _
          · simp only [he2]
            exact ih (i + 1) (by omega) (by omega)
          · simp only [he2]
            exact ⟨_, rfl⟩
      · exact ih (i + 1) (by omega) (by omega)
    · exact ⟨_, rfl⟩

theorem strzl_naive_find_substr_total (h : strzl_haystack_t) (n : strzl_needle_t)
    (hpre : 5 ≤ n.len → n.anomaly_offset + 4 ≤ n.len) :
    ∃ r, strzl_naive_find_substr h n = some r := by
  unfold strzl_naive_find_substr
  split
  · exact ⟨_, rfl⟩
  · split
    · exact ⟨_, rfl⟩
    · next h0 =>
      split
      · next h1 =>
        obtain ⟨c, hc⟩ := needleByte_isSome (show 0 < n.len by omega)
        simp only [hc]
        exact strzl_naive_find_char_total h c
      · next h1 =>
        split
        · next h2 =>
          obtain ⟨a, ha⟩ := needleByte_isSome (show 0 < n.len by omega)
          obtain ⟨b, hb⟩ := needleByte_isSome (show 1 < n.len by omega)
          simp only [ha, hb]
          exact strzl_naive_find_2chars_total h a b
        · next h2 =>
          split
          · next h3 =>
            obtain ⟨a, ha⟩ := needleByte_isSome (show 0 < n.len by omega)
            obtain ⟨b, hb⟩ := needleByte_isSome (show 1 < n.len by omega)
            obtain ⟨c, hc⟩ := needleByte_isSome (show 2 < n.len by omega)
            simp only [ha, hb, hc]
            exact strzl_naive_find_3chars_total h a b c
          · next h3 =>
            split
            · next h4 =>
              obtain ⟨a, ha⟩ := needleByte_isSome (show 0 < n.len by omega)
              obtain ⟨b, hb⟩ := needleByte_isSome (show 1 < n.len by omega)
              obtain ⟨c, hc⟩ := needleByte_isSome (show 2 < n.len by omega)
              obtain ⟨d, hd⟩ := needleByte_isSome (show 3 < n.len by omega)
              simp only [ha, hb, hc, hd]
              exact strzl_naive_find_4chars_total h a b c d
            · next h4 =>
              have hao : n.anomaly_offset + 4 ≤ n.len := hpre (by omega)
              obtain ⟨w, hw⟩ := needleBytes_isSome (show n.anomaly_offset + 4 ≤ n.len from hao)
              simp only [hw]
              exact find_substr_main_total h n (packLE w) (n.len - 4 - n.anomaly_offset)
                (by omega) (h.len + 1) n.anomaly_offset (by omega) (by omega)

theorem strzl_simd_verify_total (h : strzl_haystack_t) (n : strzl_needle_t) (base : Nat) :
    ∀ k j, base + j + k + n.len ≤ h.len →
      ∃ r, strzl_simd_verify h n base k j = some r := by
  intro k
  induction k with
  | zero => intro j _; exact ⟨none, rfl⟩
  | succ m ih =>
    intro j hb
    simp only [strzl_simd_verify]
    obtain ⟨e, he⟩ := strzl_equal_total (readByte h) (needleByte n) n.len (base + j) 0
      (fun k hk => readByte_isSome (by omega))
      (fun k hk => needleByte_isSome (by omega))
    rcases e with _ | _
    · simp only [he]
      exact ih (j + 1) (by omega)
    · simp only [he]
      exact ⟨_, rfl⟩

theorem avx2_loop_total (h : strzl_haystack_t) (n : strzl_needle_t) (p : Nat)
    (h4 : 4 ≤ n.len) (hpre : 5 ≤ n.len → n.anomaly_offset + 4 ≤ n.len) :
    ∀ fuel i, h.len - i < fuel →
      ∃ r, strzl_avx2_find_substr_loop h n p fuel i = some r := by
  intro fuel
  induction fuel with
  | zero => intro i hi; exact absurd hi (by omega)
  | succ m ih =>
    intro i hi
    simp only [strzl_avx2_find_substr_loop]
    split
    · next hcond =>
      obtain ⟨b0, hb0⟩ := readBytes_isSome (show i + 32 ≤ h.len by omega)
      obtain ⟨b1, hb1⟩ := readBytes_isSome (show i + 1 + 32 ≤ h.len by omega)
      obtain ⟨b2, hb2⟩ := readBytes_isSome (show i + 2 + 32 ≤ h.len by omega)
      obtain ⟨b3, hb3⟩ := readBytes_isSome (show i + 3 + 32 ≤ h.len by omega)
      simp only [hb0, hb1, hb2, hb3]
      split
      · obtain ⟨v, hv⟩ := strzl_simd_verify_total h n i 32 0 (by omega)
        rcases v with _ | r
        · simp only [hv]
          exact ih (i + 32) (by omega)
        · simp only [hv]
          exact ⟨_, rfl⟩
      · exact ih (i + 32) (by omega)
    · obtain ⟨t, ht⟩ := strzl_naive_find_substr_total ⟨h.addr + i, h.data.drop i⟩ n hpre
      simp only [ht]
      exact ⟨_, rfl⟩

theorem strzl_avx2_find_substr_total (h : strzl_haystack_t) (n : strzl_needle_t)
    (hpre : 5 ≤ n.len → n.anomaly_offset + 4 ≤ n.len) :
    ∃ r, strzl_avx2_find_substr h n = some r := by
  unfold strzl_avx2_find_substr
  split
  · exact strzl_naive_find_substr_total h n hpre
  · next h4 =>
    obtain ⟨w, hw⟩ := needleBytes_isSome (show 0 + 4 ≤ n.len by omega)
    simp only [hw]
    exact avx2_loop_total h n (packLE w) (by omega) hpre (h.len + 1) 0 (by omega)

theorem neon_loop_total (h : strzl_haystack_t) (n : strzl_needle_t) (p : Nat)
    (h4 : 4 ≤ n.len) (hpre : 5 ≤ n.len → n.anomaly_offset + 4 ≤ n.len) :
    ∀ fuel i, h.len - i < fuel →
      ∃ r, strzl_neon_find_substr_loop h n p fuel i = some r := by
  intro fuel
  induction fuel with
  | zero => intro i hi; exact absurd hi (by omega)
  | succ m ih =>
    intro i hi
    simp only [strzl_neon_find_substr_loop]
    split
    · next hcond =>
      obtain ⟨b0, hb0⟩ := readBytes_isSome (show i + 16 ≤ h.len by omega)
      obtain ⟨b1, hb1⟩ := readBytes_isSome (show i + 1 + 16 ≤ h.len by omega)
      obtain ⟨b2, hb2⟩ := readBytes_isSome (show i + 2 + 16 ≤ h.len by omega)
      obtain ⟨b3, hb3⟩ := readBytes_isSome (show i + 3 + 16 ≤ h.len by omega)
      simp only [hb0, hb1, hb2, hb3]
      split
      · obtain ⟨v, hv⟩ := strzl_simd_verify_total h n i 16 0 (by omega)
        rcases v with _ | r
        · simp only [hv]
          exact ih (i + 16) (by omega)
        · simp only [hv]
          exact ⟨_, rfl⟩
      · exact ih (i + 16) (by omega)
    · obtain ⟨t, ht⟩ := strzl_naive_find_substr_total ⟨h.addr + i, h.data.drop i⟩ n hpre
      simp only [ht]
      exact ⟨_, rfl⟩

theorem strzl_neon_find_substr_total (h : strzl_haystack_t) (n : strzl_needle_t)
    (hpre : 5 ≤ n.len → n.anomaly_offset + 4 ≤ n.len) :
    ∃ r, strzl_neon_find_substr h n = some r := by
  unfold strzl_neon_find_substr
  split
  · exact strzl_naive_find_substr_total h n hpre
  · next h4 =>
    obtain ⟨w, hw⟩ := needleBytes_isSome (show 0 + 4 ≤ n.len by omega)
    simp only [hw]
    exact neon_loop_total h n (packLE w) (by omega) hpre (h.len + 1) 0 (by omega)

theorem neon_count_vec_total (h : strzl_haystack_t) (c : Nat) :
    ∀ fuel i acc, h.len - i < fuel →
      ∃ r, strzl_neon_count_char_vec h c fuel i acc = some r := by
  intro fuel
  induction fuel with
  | zero => intro i acc hi; exact absurd hi (by omega)
  | succ m ih =>
    intro i acc hi
    simp only [strzl_neon_count_char_vec]
    split
    · next hcond =>
      obtain ⟨bs, hbs⟩ := readBytes_isSome hcond
      simp only [hbs]
      exact ih (i + 16) _ (by omega)
    · exact ⟨_, rfl⟩

theorem strzl_neon_count_char_total (h : strzl_haystack_t) (c : Nat) :
    ∃ r, strzl_neon_count_char h c = some r := by
  unfold strzl_neon_count_char
  obtain ⟨r1, h1⟩ := strzl_naive_count_char_total
    ⟨h.addr, h.data.take (min (strzl_divide_round_up h.addr 16 * 16 - h.addr) h.len)⟩ c
  simp only [h1]
  split
  · exact ⟨_, rfl⟩
  · obtain ⟨⟨i2, a2⟩, h2⟩ := neon_count_vec_total h c (h.len + 1)
      (min (strzl_divide_round_up h.addr 16 * 16 - h.addr) h.len) r1 (by omega)
    simp only [h2]
    obtain ⟨t, h3⟩ := strzl_naive_count_char_total ⟨h.addr + i2, h.data.drop i2⟩ c
    simp only [h3]
    exact ⟨_, rfl⟩

/-- Claim C6: under the documented preconditions (anomaly offset within the
needle when the needle has at least 5 bytes), every search and count
operation stays inside the haystack and needle buffers: in the Option
embedding, where any out-of-range read or missing fuel yields `none`, every
entry point and kernel returns `some` result. -/
theorem searches_and_counts_stay_in_bounds (h : strzl_haystack_t) (n : strzl_needle_t)
    (c n0 n1 n2 n3 : Nat) (hpre : 5 ≤ n.len → n.anomaly_offset + 4 ≤ n.len) :
    (∃ r, strzl_naive_find_substr h n = some r) ∧
      (∃ r, strzl_naive_count_char h c = some r) ∧
      (∃ r, strzl_naive_find_char h c = some r) ∧
      (∃ r, strzl_naive_find_2chars h n0 n1 = some r) ∧
      (∃ r, strzl_naive_find_3chars h n0 n1 n2 = some r) ∧
      (∃ r, strzl_naive_find_4chars h n0 n1 n2 n3 = some r) ∧
      (∃ r, strzl_avx2_find_substr h n = some r) ∧
      (∃ r, strzl_neon_find_substr h n = some r) ∧
      (∃ r, strzl_neon_count_char h c = some r) :=
  ⟨strzl_naive_find_substr_total h n hpre, strzl_naive_count_char_total h c,
    strzl_naive_find_char_total h c, strzl_naive_find_2chars_total h n0 n1,
    strzl_naive_find_3chars_total h n0 n1 n2, strzl_naive_find_4chars_total h n0 n1 n2 n3,
    strzl_avx2_find_substr_total h n hpre, strzl_neon_find_substr_total h n hpre,
    strzl_neon_count_char_total h c⟩

/-- Witness for C6 at a concrete input. -/
theorem searches_and_counts_stay_in_bounds_witness :
    (∃ r, strzl_naive_find_substr ⟨3, [9, 8, 7, 6, 5, 4, 3, 2, 1]⟩ ⟨[8, 7, 6, 5, 4], 1⟩ =
        some r) ∧
      (∃ r, strzl_naive_count_char ⟨3, [9, 8, 7, 6, 5, 4, 3, 2, 1]⟩ 7 = some r) ∧
      (∃ r, strzl_naive_find_char ⟨3, [9, 8, 7, 6, 5, 4, 3, 2, 1]⟩ 7 = some r) ∧
      (∃ r, strzl_naive_find_2chars ⟨3, [9, 8, 7, 6, 5, 4, 3, 2, 1]⟩ 20 21 = some r) ∧
      (∃ r, strzl_naive_find_3chars ⟨3, [9, 8, 7, 6, 5, 4, 3, 2, 1]⟩ 20 21 22 = some r) ∧
      (∃ r, strzl_naive_find_4chars ⟨3, [9, 8, 7, 6, 5, 4, 3, 2, 1]⟩ 20 21 22 23 = some r) ∧
      (∃ r, strzl_avx2_find_substr ⟨3, [9, 8, 7, 6, 5, 4, 3, 2, 1]⟩ ⟨[8, 7, 6, 5, 4], 1⟩ =
        some r) ∧
      (∃ r, strzl_neon_find_substr ⟨3, [9, 8, 7, 6, 5, 4, 3, 2, 1]⟩ ⟨[8, 7, 6, 5, 4], 1⟩ =
        some r) ∧
      (∃ r, strzl_neon_count_char ⟨3, [9, 8, 7, 6, 5, 4, 3, 2, 1]⟩ 7 = some r) :=
  searches_and_counts_stay_in_bounds ⟨3, [9, 8, 7, 6, 5, 4, 3, 2, 1]⟩ ⟨[8, 7, 6, 5, 4], 1⟩
    7 20 21 22 23 (by decide)

theorem popcount64_pos {x : Nat} (hx : x ≠ 0) (hlt : x < U64) : 0 < popcount64 x := by
  have hbit : ∃ i, x.testBit i = true := by
    by_contra hall
    push_neg at hall
    exact hx (Nat.eq_of_testBit_eq fun i => by
      rw [Nat.zero_testBit]
      exact Bool.eq_false_iff.mpr fun ht => (hall i) ht)
  obtain ⟨i, hi⟩ := hbit
  have hi64 : i < 64 := by
    by_contra hge
    push_neg at hge
    have : x < 2 ^ i := lt_of_lt_of_le hlt (by
      have : (U64 : Nat) = 2 ^ 64 := by norm_num [U64]
      rw [this]
      exact Nat.pow_le_pow_right (by norm_num) hge)
    rw [Nat.testBit_lt_two_pow this] at hi
    exact Bool.false_ne_true hi
  unfold popcount64
  exact List.countP_pos_iff.mpr ⟨i, List.mem_range.mpr hi64, hi⟩

theorem ctz64_lt {x : Nat} (hx : x ≠ 0) (hlt : x < U64) : ctz64 x < 64 := by
  have hbit : ∃ i ∈ List.range 64, x.testBit i = true := by
    have : ∃ i, x.testBit i = true := by
      by_contra hall
      push_neg at hall
      exact hx (Nat.eq_of_testBit_eq fun i => by
        rw [Nat.zero_testBit]
        exact Bool.eq_false_iff.mpr fun ht => (hall i) ht)
    obtain ⟨i, hi⟩ := this
    have hi64 : i < 64 := by
      by_contra hge
      push_neg at hge
      have : x < 2 ^ i := lt_of_lt_of_le hlt (by
        have : (U64 : Nat) = 2 ^ 64 := by norm_num [U64]
        rw [this]
        exact Nat.pow_le_pow_right (by norm_num) hge)
      rw [Nat.testBit_lt_two_pow this] at hi
      exact Bool.false_ne_true hi
    exact ⟨i, List.mem_range.mpr hi64, hi⟩
  have hsome : ((List.range 64).find? (fun i => x.testBit i)).isSome :=
    List.find?_isSome.mpr hbit
  obtain ⟨b, hb⟩ := Option.isSome_iff_exists.mp hsome
  unfold ctz64
  rw [hb]
  exact List.mem_range.mp (List.mem_of_find?_eq_some hb)

theorem swar1_indicators_lt (s t : Nat) : swar1_indicators s t < U64 :=
  lt_of_le_of_lt Nat.and_le_right (by norm_num [U64])

theorem align_phase_rel (h : strzl_haystack_t) (c : Nat) :
    ∀ fuel i acc, h.len - i < fuel →
      ∃ i2 acc2, strzl_naive_count_char_align h c fuel i acc = some (i2, acc2) ∧
        acc ≤ acc2 ∧
        ((acc < acc2 ∧ ∃ j, strzl_naive_find_char_align h c fuel i = some (Sum.inl j) ∧
            j < h.len) ∨
          (acc2 = acc ∧ strzl_naive_find_char_align h c fuel i = some (Sum.inr i2))) := by
  intro fuel
  induction fuel with
  | zero => intro i acc hi; exact absurd hi (by omega)
  | succ m ih =>
    intro i acc hi
    by_cases hcond : (h.addr + i) % 8 ≠ 0 ∧ i < h.len
    · obtain ⟨b, hb⟩ := readByte_isSome hcond.2
      have hceq : strzl_naive_count_char_align h c (m + 1) i acc =
          strzl_naive_count_char_align h c m (i + 1) (if b = c then acc + 1 else acc) := by
        simp only [strzl_naive_count_char_align]
        rw [if_pos hcond]
        simp only [hb]
      by_cases hbc : b = c
      · obtain ⟨i2, acc2, hc2, hle2, _⟩ := ih (i + 1) (acc + 1) (by omega)
        refine ⟨i2, acc2, ?_, by omega, Or.inl ⟨by omega, i, ?_, hcond.2⟩⟩
        · rw [hceq, if_pos hbc]
          exact hc2
        · simp only [strzl_naive_find_char_align]
          rw [if_pos hcond]
          simp only [hb]
          rw [if_pos hbc]
      · obtain ⟨i2, acc2, hc2, hle2, hd⟩ := ih (i + 1) acc (by omega)
        have hfeq : strzl_naive_find_char_align h c (m + 1) i =
            strzl_naive_find_char_align h c m (i + 1) := by
          simp only [strzl_naive_find_char_align]
          rw [if_pos hcond]
          simp only [hb]
          rw [if_neg hbc]
        refine ⟨i2, acc2, ?_, hle2, ?_⟩
        · rw [hceq, if_neg hbc]
          exact hc2
        · rw [hfeq]
          exact hd
    · refine ⟨i, acc, ?_, le_refl acc, Or.inr ⟨rfl, ?_⟩⟩
      · simp only [strzl_naive_count_char_align]
        rw [if_neg hcond]
      · simp only [strzl_naive_find_char_align]
        rw [if_neg hcond]

theorem swar_phase_rel (h : strzl_haystack_t) (t : Nat) :
    ∀ fuel i acc, h.len - i < fuel →
      ∃ i2 acc2, strzl_naive_count_char_swar h t fuel i acc = some (i2, acc2) ∧
        acc ≤ acc2 ∧
        ((acc < acc2 ∧ ∃ j, strzl_naive_find_char_swar h t fuel i = some (Sum.inl j) ∧
            j < h.len) ∨
          (acc2 = acc ∧ strzl_naive_find_char_swar h t fuel i = some (Sum.inr i2))) := by
  intro fuel
  induction fuel with
  | zero => intro i acc hi; exact absurd hi (by omega)
  | succ m ih =>
    intro i acc hi
    by_cases hcond : i + 8 ≤ h.len
    · obtain ⟨bs, hbs⟩ := readBytes_isSome hcond
      have hceq : strzl_naive_count_char_swar h t (m + 1) i acc =
          strzl_naive_count_char_swar h t m (i + 8)
            (acc + popcount64 (swar1_indicators (packLE bs) t)) := by
        simp only [strzl_naive_count_char_swar]
        rw [if_pos hcond]
        simp only [hbs]
      obtain ⟨i2, acc2, hc2, hle2, hd⟩ := ih (i + 8)
        (acc + popcount64 (swar1_indicators (packLE bs) t)) (by omega)
      by_cases hmi : swar1_indicators (packLE bs) t = 0
      · have hpc : popcount64 (swar1_indicators (packLE bs) t) = 0 := by
          rw [hmi]; rfl
        have hfeq : strzl_naive_find_char_swar h t (m + 1) i =
            strzl_naive_find_char_swar h t m (i + 8) := by
          simp only [strzl_naive_find_char_swar]
          rw [if_pos hcond]
          simp only [hbs]
          rw [if_neg (fun hne => hne hmi)]
        refine ⟨i2, acc2, by rw [hceq]; exact hc2, by omega, ?_⟩
        rw [hfeq]
        rcases hd with ⟨hlt, j, hf, hj⟩ | ⟨heq, hf⟩
        · exact Or.inl ⟨by omega, j, hf, hj⟩
        · exact Or.inr ⟨by omega, hf⟩
      · have hpc : 0 < popcount64 (swar1_indicators (packLE bs) t) :=
          popcount64_pos hmi (swar1_indicators_lt _ _)
        have hctz : ctz64 (swar1_indicators (packLE bs) t) < 64 :=
          ctz64_lt hmi (swar1_indicators_lt _ _)
        refine ⟨i2, acc2, by rw [hceq]; exact hc2, by omega,
          Or.inl ⟨by omega, i + ctz64 (swar1_indicators (packLE bs) t) / 8, ?_, by omega⟩⟩
        simp only [strzl_naive_find_char_swar]
        rw [if_pos hcond]
        simp only [hbs]
        rw [if_pos hmi]
    · refine ⟨i, acc, ?_, le_refl acc, Or.inr ⟨rfl, ?_⟩⟩
      · simp only [strzl_naive_count_char_swar]
        rw [if_neg hcond]
      · simp only [strzl_naive_find_char_swar]
        rw [if_neg hcond]

theorem tail_phase_rel (h : strzl_haystack_t) (c : Nat) :
    ∀ fuel i acc, h.len - i < fuel →
      ∃ acc2, strzl_naive_count_char_tail h c fuel i acc = some acc2 ∧ acc ≤ acc2 ∧
        ((acc < acc2 ∧ ∃ j, strzl_naive_find_char_tail h c fuel i = some j ∧ j < h.len) ∨
          (acc2 = acc ∧ strzl_naive_find_char_tail h c fuel i = some h.len)) := by
  intro fuel
  induction fuel with
  | zero => intro i acc hi; exact absurd hi (by omega)
  | succ m ih =>
    intro i acc hi
    by_cases hcond : i < h.len
    · obtain ⟨b, hb⟩ := readByte_isSome hcond
      have hceq : strzl_naive_count_char_tail h c (m + 1) i acc =
          strzl_naive_count_char_tail h c m (i + 1) (if b = c then acc + 1 else acc) := by
        simp only [strzl_naive_count_char_tail]
        rw [if_pos hcond]
        simp only [hb]
      by_cases hbc : b = c
      · obtain ⟨acc2, hc2, hle2, _⟩ := ih (i + 1) (acc + 1) (by omega)
        refine ⟨acc2, ?_, by omega, Or.inl ⟨by omega, i, ?_, hcond⟩⟩
        · rw [hceq, if_pos hbc]
          exact hc2
        · simp only [strzl_naive_find_char_tail]
          rw [if_pos hcond]
          simp only [hb]
          rw [if_pos hbc]
      · obtain ⟨acc2, hc2, hle2, hd⟩ := ih (i + 1) acc (by omega)
        have hfeq : strzl_naive_find_char_tail h c (m + 1) i =
            strzl_naive_find_char_tail h c m (i + 1) := by
          simp only [strzl_naive_find_char_tail]
          rw [if_pos hcond]
          simp only [hb]
          rw [if_neg hbc]
        refine ⟨acc2, ?_, hle2, ?_⟩
        · rw [hceq, if_neg hbc]
          exact hc2
        · rw [hfeq]
          exact hd
    · refine ⟨acc, ?_, le_refl acc, Or.inr ⟨rfl, ?_⟩⟩
      · simp only [strzl_naive_count_char_tail]
        rw [if_neg hcond]
      · simp only [strzl_naive_find_char_tail]
        rw [if_neg hcond]

/-- Claim C10: `strzl_naive_find_char` reports a hit exactly when
`strzl_naive_count_char` reports a nonzero count, for every haystack (any
base alignment, any byte values) and every needle byte: the two kernels scan
the same prologue, the same 8-byte slices with the same indicator word, and
the same tail, and an indicator word is nonzero exactly when its popcount is
positive. -/
theorem find_char_hit_iff_count_pos (h : strzl_haystack_t) (c : Nat) :
    (∃ i, strzl_naive_find_char h c = some i ∧ i < h.len) ↔
      (∃ k, strzl_naive_count_char h c = some k ∧ 0 < k) := by
  unfold strzl_naive_find_char strzl_naive_count_char
  obtain ⟨i1, a1, hc1, hle1, hd1⟩ := align_phase_rel h c (h.len + 1) 0 0 (by omega)
  simp only [hc1]
  rcases hd1 with ⟨hlt1, j, hf1, hj⟩ | ⟨ha1, hf1⟩
  · simp only [hf1]
    obtain ⟨i2, a2, hc2, hle2, _⟩ :=
      swar_phase_rel h (strzl_broadcast_char c) (h.len + 1) i1 a1 (by omega)
    simp only [hc2]
    obtain ⟨a3, hc3, hle3, _⟩ := tail_phase_rel h c (h.len + 1) i2 a2 (by omega)
    simp only [hc3]
    constructor
    · intro _
      exact ⟨a3, rfl, by omega⟩
    · intro _
      exact ⟨j, rfl, hj⟩
  · simp only [hf1]
    obtain ⟨i2, a2, hc2, hle2, hd2⟩ :=
      swar_phase_rel h (strzl_broadcast_char c) (h.len + 1) i1 a1 (by omega)
    simp only [hc2]
    rcases hd2 with ⟨hlt2, j, hf2, hj⟩ | ⟨ha2, hf2⟩
    · simp only [hf2]
      obtain ⟨a3, hc3, hle3, _⟩ := tail_phase_rel h c (h.len + 1) i2 a2 (by omega)
      simp only [hc3]
      constructor
      · intro _
        exact ⟨a3, rfl, by omega⟩
      · intro _
        exact ⟨j, rfl, hj⟩
    · simp only [hf2]
      obtain ⟨a3, hc3, hle3, hd3⟩ := tail_phase_rel h c (h.len + 1) i2 a2 (by omega)
      simp only [hc3]
      rcases hd3 with ⟨hlt3, j, hf3, hj⟩ | ⟨ha3, hf3⟩
      · simp only [hf3]
        constructor
        · intro _
          exact ⟨a3, rfl, by omega⟩
        · intro _
          exact ⟨j, rfl, hj⟩
      · simp only [hf3]
        constructor
        · intro ⟨j, hjeq, hjlt⟩
          exact absurd hjeq (by
            intro hx
            have : h.len = j := Option.some.inj hx
            omega)
        · intro ⟨k, hkeq, hkpos⟩
          have : a3 = k := Option.some.inj hkeq
          omega

/-- Claim C1: soundness of search fails on the code.  On the 8-aligned
haystack `[0x00, 0xFF, 0, 0, 0, 0, 0, 0]` and the one-byte needle `0x80`,
`strzl_naive_find_substr` (routing to `strzl_naive_find_char`) returns index
1, which is inside the haystack, yet the byte there is `0xFF`, not `0x80`:
the sign-extended template word compares positions 1..7 of each aligned
8-byte slice against `0xFF` instead of the needle byte. -/
theorem find_substr_returns_nonmatch_on_high_byte :
    strzl_naive_find_substr ⟨0, [0x00, 0xFF, 0, 0, 0, 0, 0, 0]⟩ ⟨[0x80], 0⟩ = some 1 ∧
      1 < ([0x00, 0xFF, 0, 0, 0, 0, 0, 0] : List Nat).length ∧
      (([0x00, 0xFF, 0, 0, 0, 0, 0, 0] : List Nat).drop 1).take 1 ≠ [0x80] := by decide

/-- Claim C2: completeness of search fails on the code.  With haystack
`"zabcde"`, needle `"abcde"` and `anomaly_offset = 1` (which satisfies the
documented precondition `anomaly_offset + 4 <= n.len`), the scanner returns
`h.len = 6` although the needle occurs at index 1: after `h_ptr +=
anomaly_offset` the loop bound `h_ptr + n.len <= h_end` excludes the last
`anomaly_offset` candidate positions. -/
theorem find_substr_misses_match_with_anomaly_offset :
    strzl_naive_find_substr ⟨0, [122, 97, 98, 99, 100, 101]⟩ ⟨[97, 98, 99, 100, 101], 1⟩ =
        some 6 ∧
      (([122, 97, 98, 99, 100, 101] : List Nat).drop 1).take 5 = [97, 98, 99, 100, 101] := by
  decide

/-- Claim C3: the first-match discipline fails on the code.  On the 8-aligned
haystack `[0, 0x80, 0, 0, 0, 0, 0, 0, 0x80]` with the one-byte needle `0x80`,
the SWAR loop misses the occurrence at index 1 (the sign-extended template
expects `0xFF` there) and the byte-by-byte tail then reports index 8, even
though index 1 matches. -/
theorem find_char_skips_earlier_high_byte_match :
    strzl_naive_find_substr ⟨0, [0, 0x80, 0, 0, 0, 0, 0, 0, 0x80]⟩ ⟨[0x80], 0⟩ = some 8 ∧
      (([0, 0x80, 0, 0, 0, 0, 0, 0, 0x80] : List Nat).drop 1).take 1 = [0x80] := by decide

/-- Claim C4: counting correctness fails on the code.  On the 8-aligned
haystack `[0x00, 0xFF, 0, 0, 0, 0, 0, 0]`, `strzl_naive_count_char` reports
one occurrence of `0x80` although the byte `0x80` does not occur at all: the
sign-extended template counts the `0xFF` at position 1. -/
theorem count_char_miscounts_high_byte :
    strzl_naive_count_char ⟨0, [0x00, 0xFF, 0, 0, 0, 0, 0, 0]⟩ 0x80 = some 1 ∧
      ([0x00, 0xFF, 0, 0, 0, 0, 0, 0] : List Nat).count 0x80 = 0 := by decide

/-- Claim C5: back-end agreement fails on the code.  On a 40-byte 8-aligned
haystack and the 4-byte needle `[0x80, 0x41, 0x41, 0x41]` (`anomaly_offset =
0`, within the documented preconditions), the scalar path returns 1 (a false
positive of the sign-extended template in `strzl_naive_find_4chars`) while
the AVX2 and NEON paths, whose lane comparisons and verification are exact,
both return the miss sentinel 40. -/
theorem backends_disagree_on_len4_high_byte :
    strzl_naive_find_substr ⟨0, [0x00, 0xFF, 0xFF, 0xFF, 0xFF] ++ List.replicate 35 0⟩
        ⟨[0x80, 0x41, 0x41, 0x41], 0⟩ = some 1 ∧
      strzl_avx2_find_substr ⟨0, [0x00, 0xFF, 0xFF, 0xFF, 0xFF] ++ List.replicate 35 0⟩
        ⟨[0x80, 0x41, 0x41, 0x41], 0⟩ = some 40 ∧
      strzl_neon_find_substr ⟨0, [0x00, 0xFF, 0xFF, 0xFF, 0xFF] ++ List.replicate 35 0⟩
        ⟨[0x80, 0x41, 0x41, 0x41], 0⟩ = some 40 := by decide

theorem ctz64_le (x : Nat) : ctz64 x ≤ 64 := by
  unfold ctz64
  rcases hf : (List.range 64).find? (fun i => x.testBit i) with _ | b
  · simp
  · simp only [Option.getD_some]
    have : b < 64 := List.mem_range.mp (List.mem_of_find?_eq_some hf)
    omega

theorem strzl_4chars_lookup_getD_le (idx : Nat) : strzl_4chars_lookup.getD idx 0 ≤ 3 := by
  by_cases hidx : idx < 16
  · interval_cases idx <;> decide
  · rw [List.getD_eq_default]
    · omega
    · simp only [strzl_4chars_lookup, List.length_cons, List.length_nil]
      omega

theorem find_char_align_hit_lt (h : strzl_haystack_t) (c : Nat) :
    ∀ fuel i j, strzl_naive_find_char_align h c fuel i = some (Sum.inl j) → j < h.len := by
  intro fuel
  induction fuel with
  | zero => intro i j heq; exact absurd heq (by simp [strzl_naive_find_char_align])
  | succ m ih =>
    intro i j heq
    simp only [strzl_naive_find_char_align] at heq
    split at heq
    · next hcond =>
      obtain ⟨b, hb⟩ := readByte_isSome hcond.2
      simp only [hb] at heq
      split at heq
      · simp only [Option.some.injEq, Sum.inl.injEq] at heq
        omega
      · exact ih (i + 1) j heq
    · simp at heq

theorem find_char_swar_hit_lt (h : strzl_haystack_t) (t : Nat) :
    ∀ fuel i j, strzl_naive_find_char_swar h t fuel i = some (Sum.inl j) → j < h.len := by
  intro fuel
  induction fuel with
  | zero => intro i j heq; exact absurd heq (by simp [strzl_naive_find_char_swar])
  | succ m ih =>
    intro i j heq
    simp only [strzl_naive_find_char_swar] at heq
    split at heq
    · next hcond =>
      obtain ⟨bs, hb⟩ := readBytes_isSome hcond
      simp only [hb] at heq
      split at heq
      · next hmi =>
        simp only [Option.some.injEq, Sum.inl.injEq] at heq
        have hlt := ctz64_lt hmi (swar1_indicators_lt (packLE bs) t)
        omega
      · exact ih (i + 8) j heq
    · simp at heq

theorem find_char_tail_le (h : strzl_haystack_t) (c : Nat) :
    ∀ fuel i j, strzl_naive_find_char_tail h c fuel i = some j → j ≤ h.len := by
  intro fuel
  induction fuel with
  | zero => intro i j heq; exact absurd heq (by simp [strzl_naive_find_char_tail])
  | succ m ih =>
    intro i j heq
    simp only [strzl_naive_find_char_tail] at heq
    split at heq
    · next hcond =>
      obtain ⟨b, hb⟩ := readByte_isSome hcond
      simp only [hb] at heq
      split at heq
      · simp only [Option.some.injEq] at heq
        omega
      · exact ih (i + 1) j heq
    · simp only [Option.some.injEq] at heq
      omega

theorem strzl_naive_find_char_le (h : strzl_haystack_t) (c : Nat) :
    ∀ r, strzl_naive_find_char h c = some r → r ≤ h.len := by
  intro r heq
  unfold strzl_naive_find_char at heq
  obtain ⟨r1, h1⟩ := find_char_align_total h c (h.len + 1) 0 (by omega)
  simp only [h1] at heq
  rcases r1 with j | i
  · simp only [Option.some.injEq] at heq
    have := find_char_align_hit_lt h c (h.len + 1) 0 j h1
    omega
  · obtain ⟨r2, h2⟩ := find_char_swar_total h (strzl_broadcast_char c) (h.len + 1) i (by omega)
    simp only [h2] at heq
    rcases r2 with j | i2
    · simp only [Option.some.injEq] at heq
      have := find_char_swar_hit_lt h (strzl_broadcast_char c) (h.len + 1) i j h2
      omega
    · exact find_char_tail_le h c (h.len + 1) i2 r heq

theorem find_2chars_swar_hit_le (h : strzl_haystack_t) (t : Nat) :
    ∀ fuel i j, strzl_naive_find_2chars_swar h t fuel i = some (Sum.inl j) → j ≤ h.len := by
  intro fuel
  induction fuel with
  | zero => intro i j heq; exact absurd heq (by simp [strzl_naive_find_2chars_swar])
  | succ m ih =>
    intro i j heq
    simp only [strzl_naive_find_2chars_swar] at heq
    split at heq
    · next hcond =>
      obtain ⟨bs, hb⟩ := readBytes_isSome hcond
      simp only [hb] at heq
      split at heq
      · simp only [Option.some.injEq, Sum.inl.injEq] at heq
        have := ctz64_le (swar2_indicators (not64 (packLE bs ^^^ t)) 0x0001000100010001 |||
          swar2_indicators (not64 (shl64 (packLE bs) 8 ^^^ t)) 0x0001000100010000 >>> 8)
        omega
      · exact ih (i + 7) j heq
    · simp at heq

theorem find_2chars_tail_le (h : strzl_haystack_t) (n0 n1 : Nat) :
    ∀ fuel i j, strzl_naive_find_2chars_tail h n0 n1 fuel i = some j → j ≤ h.len := by
  intro fuel
  induction fuel with
  | zero => intro i j heq; exact absurd heq (by simp [strzl_naive_find_2chars_tail])
  | succ m ih =>
    intro i j heq
    simp only [strzl_naive_find_2chars_tail] at heq
    split at heq
    · next hcond =>
      obtain ⟨b0, hb0⟩ := readByte_isSome (show i < h.len by omega)
      obtain ⟨b1, hb1⟩ := readByte_isSome (show i + 1 < h.len by omega)
      simp only [hb0, hb1] at heq
      split at heq
      · simp only [Option.some.injEq] at heq
        omega
      · exact ih (i + 1) j heq
    · simp only [Option.some.injEq] at heq
      omega

theorem strzl_naive_find_2chars_le (h : strzl_haystack_t) (n0 n1 : Nat) :
    ∀ r, strzl_naive_find_2chars h n0 n1 = some r → r ≤ h.len := by
  intro r heq
  unfold strzl_naive_find_2chars at heq
  obtain ⟨r1, h1⟩ := find_2chars_swar_total h (strzl_2chars_template n0 n1) (h.len + 1) 0
    (by omega)
  simp only [h1] at heq
  rcases r1 with j | i
  · simp only [Option.some.injEq] at heq
    have := find_2chars_swar_hit_le h (strzl_2chars_template n0 n1) (h.len + 1) 0 j h1
    omega
  · exact find_2chars_tail_le h n0 n1 (h.len + 1) i r heq

theorem find_3chars_swar_hit_le (h : strzl_haystack_t) (t : Nat) :
    ∀ fuel i j, strzl_naive_find_3chars_swar h t fuel i = some (Sum.inl j) → j ≤ h.len := by
  intro fuel
  induction fuel with
  | zero => intro i j heq; exact absurd heq (by simp [strzl_naive_find_3chars_swar])
  | succ m ih =>
    intro i j heq
    simp only [strzl_naive_find_3chars_swar] at heq
    split at heq
    · next hcond =>
      obtain ⟨bs, hb⟩ := readBytes_isSome hcond
      simp only [hb] at heq
      split at heq
      · simp only [Option.some.injEq, Sum.inl.injEq] at heq
        have := ctz64_le (swar3_indicators (not64 (packLE bs ^^^ t)) |||
          swar3_indicators (not64 (shl64 (packLE bs) 8 ^^^ t)) >>> 8 |||
          swar3_indicators (not64 (shl64 (packLE bs) 16 ^^^ t)) >>> 16)
        omega
      · exact ih (i + 6) j heq
    · simp at heq

theorem find_3chars_tail_le (h : strzl_haystack_t) (n0 n1 n2 : Nat) :
    ∀ fuel i j, strzl_naive_find_3chars_tail h n0 n1 n2 fuel i = some j → j ≤ h.len := by
  intro fuel
  induction fuel with
  | zero => intro i j heq; exact absurd heq (by simp [strzl_naive_find_3chars_tail])
  | succ m ih =>
    intro i j heq
    simp only [strzl_naive_find_3chars_tail] at heq
    split at heq
    · next hcond =>
      obtain ⟨b0, hb0⟩ := readByte_isSome (show i < h.len by omega)
      obtain ⟨b1, hb1⟩ := readByte_isSome (show i + 1 < h.len by omega)
      obtain ⟨b2, hb2⟩ := readByte_isSome (show i + 2 < h.len by omega)
      simp only [hb0, hb1, hb2] at heq
      split at heq
      · simp only [Option.some.injEq] at heq
        omega
      · exact ih (i + 1) j heq
    · simp only [Option.some.injEq] at heq
      omega

theorem strzl_naive_find_3chars_le (h : strzl_haystack_t) (n0 n1 n2 : Nat) :
    ∀ r, strzl_naive_find_3chars h n0 n1 n2 = some r → r ≤ h.len := by
  intro r heq
  unfold strzl_naive_find_3chars at heq
  obtain ⟨r1, h1⟩ := find_3chars_swar_total h (strzl_3chars_template n0 n1 n2) (h.len + 1) 0
    (by omega)
  simp only [h1] at heq
  rcases r1 with j | i
  · simp only [Option.some.injEq] at heq
    have := find_3chars_swar_hit_le h (strzl_3chars_template n0 n1 n2) (h.len + 1) 0 j h1
    omega
  · exact find_3chars_tail_le h n0 n1 n2 (h.len + 1) i r heq

theorem find_4chars_align_hit_lt (h : strzl_haystack_t) (n0 n1 n2 n3 : Nat) :
    ∀ fuel i j, strzl_naive_find_4chars_align h n0 n1 n2 n3 fuel i = some (Sum.inl j) →
      j < h.len := by
  intro fuel
  induction fuel with
  | zero => intro i j heq; exact absurd heq (by simp [strzl_naive_find_4chars_align])
  | succ m ih =>
    intro i j heq
    simp only [strzl_naive_find_4chars_align] at heq
    split at heq
    · next hcond =>
      obtain ⟨b0, hb0⟩ := readByte_isSome (show i < h.len by omega)
      obtain ⟨b1, hb1⟩ := readByte_isSome (show i + 1 < h.len by omega)
      obtain ⟨b2, hb2⟩ := readByte_isSome (show i + 2 < h.len by omega)
      obtain ⟨b3, hb3⟩ := readByte_isSome (show i + 3 < h.len by omega)
      simp only [hb0, hb1, hb2, hb3] at heq
      split at heq
      · simp only [Option.some.injEq, Sum.inl.injEq] at heq
        omega
      · exact ih (i + 1) j heq
    · simp at heq

theorem find_4chars_swar_hit_le (h : strzl_haystack_t) (t : Nat) :
    ∀ fuel i j, strzl_naive_find_4chars_swar h t fuel i = some (Sum.inl j) → j ≤ h.len := by
  intro fuel
  induction fuel with
  | zero => intro i j heq; exact absurd heq (by simp [strzl_naive_find_4chars_swar])
  | succ m ih =>
    intro i j heq
    simp only [strzl_naive_find_4chars_swar] at heq
    split at heq
    · next hcond =>
      obtain ⟨bs, hb⟩ := readBytes_isSome hcond
      simp only [hb] at heq
      split at heq
      · simp only [Option.some.injEq, Sum.inl.injEq] at heq
        have := strzl_4chars_lookup_getD_le
          (((swar4_indicators (not64 ((packLE bs &&& 0x00000000FFFFFFFF |||
              shl64 (packLE bs &&& 0x000000FFFFFFFF00) 24) ^^^ t)) >>> 31 |||
            swar4_indicators (not64 ((packLE bs &&& 0x00000000FFFFFFFF |||
              shl64 (packLE bs &&& 0x000000FFFFFFFF00) 24) ^^^ t)) |||
            swar4_indicators (not64 (((packLE bs &&& 0x0000FFFFFFFF0000) >>> 16 |||
              shl64 (packLE bs &&& 0x00FFFFFFFF000000) 8) ^^^ t)) >>> 29 |||
            shl64 (swar4_indicators (not64 (((packLE bs &&& 0x0000FFFFFFFF0000) >>> 16 |||
              shl64 (packLE bs &&& 0x00FFFFFFFF000000) 8) ^^^ t))) 2)) % 256)
        omega
      · exact ih (i + 4) j heq
    · simp at heq

theorem find_4chars_tail_le (h : strzl_haystack_t) (n0 n1 n2 n3 : Nat) :
    ∀ fuel i j, strzl_naive_find_4chars_tail h n0 n1 n2 n3 fuel i = some j → j ≤ h.len := by
  intro fuel
  induction fuel with
  | zero => intro i j heq; exact absurd heq (by simp [strzl_naive_find_4chars_tail])
  | succ m ih =>
    intro i j heq
    simp only [strzl_naive_find_4chars_tail] at heq
    split at heq
    · next hcond =>
      obtain ⟨b0, hb0⟩ := readByte_isSome (show i < h.len by omega)
      obtain ⟨b1, hb1⟩ := readByte_isSome (show i + 1 < h.len by omega)
      obtain ⟨b2, hb2⟩ := readByte_isSome (show i + 2 < h.len by omega)
      obtain ⟨b3, hb3⟩ := readByte_isSome (show i + 3 < h.len by omega)
      simp only [hb0, hb1, hb2, hb3] at heq
      split at heq
      · simp only [Option.some.injEq] at heq
        omega
      · exact ih (i + 1) j heq
    · simp only [Option.some.injEq] at heq
      omega

theorem strzl_naive_find_4chars_le (h : strzl_haystack_t) (n0 n1 n2 n3 : Nat) :
    ∀ r, strzl_naive_find_4chars h n0 n1 n2 n3 = some r → r ≤ h.len := by
  intro r heq
  unfold strzl_naive_find_4chars at heq
  obtain ⟨r1, h1⟩ := find_4chars_align_total h n0 n1 n2 n3 (h.len + 1) 0 (by omega)
  simp only [h1] at heq
  rcases r1 with j | i
  · simp only [Option.some.injEq] at heq
    have := find_4chars_align_hit_lt h n0 n1 n2 n3 (h.len + 1) 0 j h1
    omega
  · obtain ⟨r2, h2⟩ := find_4chars_swar_total h (strzl_4chars_template n0 n1 n2 n3)
      (h.len + 1) i (by omega)
    simp only [h2] at heq
    rcases r2 with j | i2
    · simp only [Option.some.injEq] at heq
      have := find_4chars_swar_hit_le h (strzl_4chars_template n0 n1 n2 n3) (h.len + 1) i j h2
      omega
    · exact find_4chars_tail_le h n0 n1 n2 n3 (h.len + 1) i2 r heq

theorem find_substr_main_le (h : strzl_haystack_t) (n : strzl_needle_t) (na sl : Nat) :
    ∀ fuel i j, strzl_naive_find_substr_main h n na sl fuel i = some j → j ≤ h.len := by
  intro fuel
  induction fuel with
  | zero => intro i j heq; exact absurd heq (by simp [strzl_naive_find_substr_main])
  | succ m ih =>
    intro i j heq
    simp only [strzl_naive_find_substr_main] at heq
    split at heq
    · next hcond =>
      rcases hw : readBytes h i 4 with _ | w
      · simp [hw] at heq
      · simp only [hw] at heq
        split at heq
        · rcases he1 : strzl_equal (readByte h) (needleByte n) (i + 4)
            (4 + n.anomaly_offset) sl with _ | e1
          · simp [he1] at heq
          · simp only [he1] at heq
            rcases e1 with _ | _
            · exact ih (i + 1) j heq
            · rcases he2 : strzl_equal (readByte h) (needleByte n) (i - n.anomaly_offset) 0
                n.anomaly_offset with _ | e2
              · simp [he2] at heq
              · simp only [he2] at heq
                rcases e2 with _ | _
                · exact ih (i + 1) j heq
                · simp only [Option.some.injEq] at heq
                  omega
        · exact ih (i + 1) j heq
    · simp only [Option.some.injEq] at heq
      omega

theorem strzl_naive_find_substr_le (h : strzl_haystack_t) (n : strzl_needle_t) :
    ∀ r, strzl_naive_find_substr h n = some r → r ≤ h.len := by
  intro r heq
  unfold strzl_naive_find_substr at heq
  split at heq
  · simp only [Option.some.injEq] at heq
    omega
  · split at heq
    · simp only [Option.some.injEq] at heq
      omega
    · split at heq
      · next h1 =>
        obtain ⟨c, hc⟩ := needleByte_isSome (show 0 < n.len by omega)
        simp only [hc] at heq
        exact strzl_naive_find_char_le h c r heq
      · split at heq
        · next h2 =>
          obtain ⟨a, ha⟩ := needleByte_isSome (show 0 < n.len by omega)
          obtain ⟨b, hb⟩ := needleByte_isSome (show 1 < n.len by omega)
          simp only [ha, hb] at heq
          exact strzl_naive_find_2chars_le h a b r heq
        · split at heq
          · next h3 =>
            obtain ⟨a, ha⟩ := needleByte_isSome (show 0 < n.len by omega)
            obtain ⟨b, hb⟩ := needleByte_isSome (show 1 < n.len by omega)
            obtain ⟨c, hc⟩ := needleByte_isSome (show 2 < n.len by omega)
            simp only [ha, hb, hc] at heq
            exact strzl_naive_find_3chars_le h a b c r heq
          · split at heq
            · next h4 =>
              obtain ⟨a, ha⟩ := needleByte_isSome (show 0 < n.len by omega)
              obtain ⟨b, hb⟩ := needleByte_isSome (show 1 < n.len by omega)
              obtain ⟨c, hc⟩ := needleByte_isSome (show 2 < n.len by omega)
              obtain ⟨d, hd⟩ := needleByte_isSome (show 3 < n.len by omega)
              simp only [ha, hb, hc, hd] at heq
              exact strzl_naive_find_4chars_le h a b c d r heq
            · rcases hw : needleBytes n n.anomaly_offset 4 with _ | w
              · simp [hw] at heq
              · simp only [hw] at heq
                exact find_substr_main_le h n (packLE w) (n.len - 4 - n.anomaly_offset)
                  (h.len + 1) n.anomaly_offset r heq

/-- Claim C7: if the needle is longer than the haystack, the search returns
exactly `h.len`, the in-band miss sentinel; and no search result ever
exceeds `h.len`, so a miss is reported as exactly `h.len` and never any
other out-of-band value. -/
theorem find_substr_too_long_needle (h : strzl_haystack_t) (n : strzl_needle_t) :
    (h.len < n.len → strzl_naive_find_substr h n = some h.len) ∧
      (∀ r, strzl_naive_find_substr h n = some r → r ≤ h.len) := by
  constructor
  · intro hl
    unfold strzl_naive_find_substr
    rw [if_pos hl]
  · exact strzl_naive_find_substr_le h n

/-- Witness for C7 at a concrete input. -/
theorem find_substr_too_long_needle_witness :
    strzl_naive_find_substr ⟨0, [5, 6]⟩ ⟨[5, 6, 7], 0⟩ = some 2 ∧ (2 : Nat) ≤ 2 :=
  ⟨(find_substr_too_long_needle ⟨0, [5, 6]⟩ ⟨[5, 6, 7], 0⟩).1 (by decide),
    (find_substr_too_long_needle ⟨0, [5, 6]⟩ ⟨[5, 6, 7], 0⟩).2 2
      ((find_substr_too_long_needle ⟨0, [5, 6]⟩ ⟨[5, 6, 7], 0⟩).1 (by decide))⟩

/-- Claim C8: searching for a zero-length needle returns 0, also on the
empty haystack. -/
theorem find_substr_empty_needle (h : strzl_haystack_t) (n : strzl_needle_t)
    (hn : n.len = 0) : strzl_naive_find_substr h n = some 0 := by
  unfold strzl_naive_find_substr
  rw [hn]
  simp

/-- Witness for C8 at a concrete input (the empty haystack). -/
theorem find_substr_empty_needle_witness :
    strzl_naive_find_substr ⟨0, []⟩ ⟨[], 3⟩ = some 0 :=
  find_substr_empty_needle ⟨0, []⟩ ⟨[], 3⟩ rfl

/-- Claim C9: for needles of length at most 4 the `anomaly_offset` field has
no effect on `strzl_naive_find_substr`: two needle descriptors with the same
bytes and arbitrary anomaly offsets give the same result. -/
theorem find_substr_short_needle_anomaly_indep (h : strzl_haystack_t)
    (n1 n2 : strzl_needle_t) (hb : n1.bytes = n2.bytes) (hlen : n1.len ≤ 4) :
    strzl_naive_find_substr h n1 = strzl_naive_find_substr h n2 := by
  obtain ⟨b1, a1⟩ := n1
  obtain ⟨b2, a2⟩ := n2
  dsimp only at hb
  subst hb
  unfold strzl_needle_t.len at hlen
  dsimp only at hlen
  rcases b1 with _ | ⟨x, _ | ⟨y, _ | ⟨z, _ | ⟨w, _ | ⟨v, rest⟩⟩⟩⟩⟩
  · rfl
  · rfl
  · rfl
  · rfl
  · rfl
  · simp at hlen

/-- Witness for C9: two descriptors for the needle `[1, 2]` with anomaly
offsets 3 and 9 give the same search result. -/
theorem find_substr_short_needle_anomaly_indep_witness :
    strzl_naive_find_substr ⟨0, [4, 1, 2, 5]⟩ ⟨[1, 2], 3⟩ =
      strzl_naive_find_substr ⟨0, [4, 1, 2, 5]⟩ ⟨[1, 2], 9⟩ :=
  find_substr_short_needle_anomaly_indep ⟨0, [4, 1, 2, 5]⟩ ⟨[1, 2], 3⟩ ⟨[1, 2], 9⟩ rfl
    (by decide)
